import Mathlib

/-!
Verification of the DESC compute/derivative/objective pipeline
(`desc/derivatives.py`, `desc/objectives/objective_funs.py`,
`desc/objectives/linear_objectives.py`).

Numeric arrays are modelled exactly: 1-D numpy arrays become `List ℚ`
(or `Fin n → F` for the constraint linear algebra), 2-D arrays become
`List (List ℚ)` (row lists) or Mathlib matrices.  Floating point is
replaced by exact field arithmetic, so "within tolerance" statements
become exact equalities, and tolerance-based counterexamples exhibit
errors far above the stated tolerances.
-/

namespace Desc

/-! ### Elementwise vector arithmetic (numpy semantics on equal-length 1-D arrays) -/

/-- Elementwise sum of two vectors, numpy `a + b` for equal-length 1-D arrays. -/
def vadd (a b : List ℚ) : List ℚ := List.zipWith (· + ·) a b

/-- Elementwise difference, numpy `a - b` for equal-length 1-D arrays. -/
def vsub (a b : List ℚ) : List ℚ := List.zipWith (· - ·) a b

/-- Elementwise product, numpy `a * b` for equal-length 1-D arrays. -/
def vmul (a b : List ℚ) : List ℚ := List.zipWith (· * ·) a b

/-- Vector divided by a scalar, numpy `a / c`. -/
def vdivs (a : List ℚ) (c : ℚ) : List ℚ := a.map (· / c)

/-- Sum of entries, numpy `np.sum(a)` / `jnp.sum(a)` for a 1-D array. -/
def npSum (a : List ℚ) : ℚ := a.sum

/-- Elementwise square, numpy `a ** 2`. -/
def npSquare (a : List ℚ) : List ℚ := a.map (fun v => v ^ 2)

/-- Sum of squares of the entries, written independently of the code's
`jnp.sum(... ** 2)` phrasing so that theorems relating the two are not
definitional restatements. -/
def sumSquares (a : List ℚ) : ℚ := (a.map (fun v => v * v)).sum

theorem npSum_npSquare_eq_sumSquares (a : List ℚ) : npSum (npSquare a) = sumSquares a := by
  unfold npSum npSquare sumSquares
  congr 1
  refine List.map_congr_left ?_
  intro v _
  ring

/-! ### C1: `_Objective.compute_scalar` (objective_funs.py lines 713-715)

The base-class default is
`return jnp.sum(self.compute(*args, **kwargs) ** 2)` -- there is NO factor
of 1/2.  The 1/2 appears only in `ObjectiveFunction.compute_scalar`
(objective_funs.py line 275): `return jnp.sum(self.compute(x, y0) ** 2) / 2`.
Both are modelled below as functionals of the residual function `compute`,
which is exactly how the base class uses them (any un-overridden subclass
inherits this code verbatim). -/

/-- Shallow embedding of `_Objective.compute_scalar` (objective_funs.py line
715): `jnp.sum(self.compute(*args, **kwargs) ** 2)`, as a functional of the
objective's `compute` residual. -/
def objectiveComputeScalar {α : Type} (compute : α → List ℚ) (x : α) : ℚ :=
  npSum (npSquare (compute x))

/-- Shallow embedding of `ObjectiveFunction.compute_scalar` (objective_funs.py
line 275): `jnp.sum(self.compute(x, y0) ** 2) / 2`. -/
def objectiveFunctionComputeScalar {α : Type} (compute : α → List ℚ) (x : α) : ℚ :=
  npSum (npSquare (compute x)) / 2

/-- C1 counterexample: a (nonlinear, non-overriding) objective whose residual
at some point is the single entry `1`.  `_Objective.compute_scalar` returns
`1`, while half the sum of squares of the residual is `1/2`; the claimed
equality fails by `1/2`, far above floating tolerance. -/
theorem objectiveComputeScalar_ne_half_sumSquares :
    objectiveComputeScalar (fun _ : Unit => [(1 : ℚ)]) () ≠
      (1 / 2) * sumSquares ((fun _ : Unit => [(1 : ℚ)]) ()) := by
  norm_num [objectiveComputeScalar, npSum, npSquare, sumSquares]

/-- C1 (amended): for every objective whose `compute_scalar` is not
overridden, `_Objective.compute_scalar(*args)` equals the FULL sum of squares
`sum(compute(*args)**2)` of the residual -- with no 0.5 factor; the 0.5
factor appears only in `ObjectiveFunction.compute_scalar`, which equals half
the sum of squares. -/
theorem objectiveComputeScalar_eq_sumSquares {α : Type} (compute : α → List ℚ) (x : α) :
    objectiveComputeScalar compute x = sumSquares (compute x) ∧
      objectiveFunctionComputeScalar compute x = (1 / 2) * sumSquares (compute x) := by
  constructor
  · exact npSum_npSquare_eq_sumSquares (compute x)
  · unfold objectiveFunctionComputeScalar
    rw [npSum_npSquare_eq_sumSquares]
    ring

/-! ### C9: `FixedBoundaryZ` target fallback (linear_objectives.py lines 266-280, 316-318)

`FixedBoundaryZ.build`, in the fallback branch
`if None in self.target or self.target.size != self.dim_f`, executes
`self.target = self.surface.R_lmn[self._idx]` (line 275) -- it reads the
surface's R coefficients, although this objective fixes Z boundary modes.
`FixedBoundaryZ.update_target` (line 318) executes
`self.target = eq.surface.Z_lmn[self._idx]`.  A surface is modelled by its
two coefficient arrays; with `modes=True` the index set `_idx` is
`np.arange(surface.Z_basis.num_modes)`. -/

/-- Model of the boundary surface: `surface.R_lmn` and `surface.Z_lmn`
coefficient arrays (one coefficient per basis mode). -/
structure SurfaceModel where
  RCoeffs : List ℚ
  ZCoeffs : List ℚ
deriving DecidableEq

/-- Shallow embedding of the `FixedBoundaryZ.build` fallback target (line 275,
`modes=True` path, no valid explicit target): `_idx = arange(Z_basis.num_modes)`
then `target = surface.R_lmn[_idx]`. -/
def fixedBoundaryZBuildFallbackTarget (s : SurfaceModel) : List ℚ :=
  (List.range s.ZCoeffs.length).map (fun i => s.RCoeffs.getD i 0)

/-- Shallow embedding of `FixedBoundaryZ.update_target` (line 318, same
`modes=True` index set): `target = surface.Z_lmn[_idx]`. -/
def fixedBoundaryZUpdateTarget (s : SurfaceModel) : List ℚ :=
  (List.range s.ZCoeffs.length).map (fun i => s.ZCoeffs.getD i 0)

/-- C9: the fallback target produced by `FixedBoundaryZ.build` reads the
surface's R coefficients while `update_target` reads its Z coefficients, so
there is an equilibrium surface (e.g. one Z mode with coefficient 2 and R
coefficient 1) on which the two targets differ. -/
theorem fixedBoundaryZ_build_target_ne_update_target :
    ∃ s : SurfaceModel,
      fixedBoundaryZBuildFallbackTarget s ≠ fixedBoundaryZUpdateTarget s := by
  refine ⟨⟨[1], [2]⟩, ?_⟩
  norm_num [fixedBoundaryZBuildFallbackTarget, fixedBoundaryZUpdateTarget]

/-! ### C7 / C10: `BroydenJacobian` (derivatives.py lines 372-420)

State fields mirror the attributes set by `BroydenJacobian.__init__`:
`x0`, `f0`, `J`, `x1`, `f1` (plus the `minstep` threshold).  `__init__` sets
`x1 = x0` and `f1 = f0`.  `compute(x)` executes, in order:
`x0 = x1; f0 = f1; x1 = x; dx = x1 - x0; step = norm(dx)`;
if `step < minstep` it returns `J` unchanged, otherwise it evaluates
`f1 = fun(x)` and applies the rank-1 secant update
`J += ((f1 - f0 - J@dx)/step**2)[:,None] * dx[None,:]`.

`np.linalg.norm(dx) < minstep` is rendered exactly in rational arithmetic:
since `norm(dx) = sqrt(sum(dx**2)) >= 0`, it holds iff
`0 <= minstep ∧ sum(dx**2) < minstep^2`.  The `else` branch divides by
`step**2 = sum(dx**2)`, which is itself rational. -/

/-- Matrix-vector product `J @ dx` for a row-list matrix. -/
def matVec (J : List (List ℚ)) (v : List ℚ) : List ℚ :=
  J.map (fun row => npSum (vmul row v))

/-- Outer product `u[:, None] * v[None, :]`. -/
def outerProd (u v : List ℚ) : List (List ℚ) :=
  u.map (fun ui => v.map (fun vj => ui * vj))

/-- Elementwise matrix sum (numpy `A + B` for equal-shape 2-D arrays). -/
def matAdd (A B : List (List ℚ)) : List (List ℚ) :=
  List.zipWith vadd A B

/-- Exact rendering of `np.linalg.norm(dx) < c`: as the norm is the
nonnegative square root of `sum(dx**2)`, the comparison holds iff
`0 ≤ c` and `sum(dx**2) < c^2`. -/
def normLt (dx : List ℚ) (c : ℚ) : Prop :=
  0 ≤ c ∧ sumSquares dx < c ^ 2

instance (dx : List ℚ) (c : ℚ) : Decidable (normLt dx c) := by
  unfold normLt
  infer_instance

/-- The mutable attributes of a `BroydenJacobian` object. -/
structure BroydenState where
  x0 : List ℚ
  f0 : List ℚ
  J : List (List ℚ)
  x1 : List ℚ
  f1 : List ℚ
  minstep : ℚ
deriving DecidableEq

/-- Shallow embedding of `BroydenJacobian.__init__` (derivatives.py lines
393-402) with an explicit `J0`: sets `x1 = x0` and `f1 = f0`. -/
def broydenInit (x0 f0 : List ℚ) (J0 : List (List ℚ)) (minstep : ℚ) : BroydenState :=
  { x0 := x0, f0 := f0, J := J0, x1 := x0, f1 := f0, minstep := minstep }

/-- Shallow embedding of `BroydenJacobian.compute` (derivatives.py lines
404-420).  Returns the updated object state together with the returned
Jacobian. -/
def broydenCompute (f : List ℚ → List ℚ) (s : BroydenState) (x : List ℚ) :
    BroydenState × List (List ℚ) :=
  let x0 := s.x1
  let f0 := s.f1
  let x1 := x
  let dx := vsub x1 x0
  if normLt dx s.minstep then
    ({ x0 := x0, f0 := f0, J := s.J, x1 := x1, f1 := s.f1, minstep := s.minstep }, s.J)
  else
    let f1 := f x
    let df := vsub f1 f0
    let stepSq := sumSquares dx
    let upd := outerProd (vdivs (vsub df (matVec s.J dx)) stepSq) dx
    let J := matAdd s.J upd
    ({ x0 := x0, f0 := f0, J := J, x1 := x1, f1 := f1, minstep := s.minstep }, J)

/-- C7: when the step from the previously stored point to `x` is below
`minstep`, `BroydenJacobian.compute` returns the stored Jacobian identically
(no rank-1 update: the stored `J` field is also unchanged), and the function
`f` is not evaluated -- the entire call result is independent of `f`. -/
theorem broydenCompute_skip (f : List ℚ → List ℚ) (s : BroydenState) (x : List ℚ)
    (hstep : normLt (vsub x s.x1) s.minstep) :
    (broydenCompute f s x).2 = s.J ∧ (broydenCompute f s x).1.J = s.J ∧
      ∀ g : List ℚ → List ℚ, broydenCompute g s x = broydenCompute f s x := by
  unfold broydenCompute
  rw [if_pos hstep]
  refine ⟨rfl, rfl, ?_⟩
  intro g
  rw [if_pos hstep]

/-- C7 witness: the object is initialized at `x0 = [1]`, `f0 = [2]`,
`J0 = [[5]]`, `minstep = 1/1000`; the call at `x = [1 + 1/10^9]` has squared
step `1/10^18 < (1/1000)^2`, and returns the stored Jacobian `[[5]]`. -/
theorem broydenCompute_skip_witness :
    normLt (vsub [1 + 1 / 10 ^ 9] (broydenInit [1] [2] [[5]] (1 / 1000)).x1)
        (broydenInit [1] [2] [[5]] (1 / 1000)).minstep ∧
      (broydenCompute (fun v => v) (broydenInit [1] [2] [[5]] (1 / 1000)) [1 + 1 / 10 ^ 9]).2 =
        [[5]] := by
  have hstep : normLt (vsub [1 + 1 / 10 ^ 9] (broydenInit [1] [2] [[5]] (1 / 1000)).x1)
      (broydenInit [1] [2] [[5]] (1 / 1000)).minstep := by
    norm_num [broydenInit, normLt, vsub, sumSquares]
  exact ⟨hstep,
    (broydenCompute_skip (fun v => v) (broydenInit [1] [2] [[5]] (1 / 1000))
      [1 + 1 / 10 ^ 9] hstep).1⟩

/-! C10 concerns the bookkeeping of the same skipped call.  The skip branch
assigns `x0 = old x1`, `f0 = old f1`, `x1 = x` and leaves `J` untouched --
but it also leaves the stored field `f1` untouched (`f1` is only reassigned
in the `else` branch, derivatives.py line 415), so `J` is NOT the only field
left unchanged by a skipped call. -/

/-- C10 counterexample: a concrete skipped call (state `x0=[0]`, `f0=[0]`,
`J=[[5]]`, `x1=[1]`, `f1=[2]`, `minstep=1`, called at `x=[3/2]`) in which the
skip condition holds, `x0`, `f0`, `x1` all change value, and BOTH `J` and the
stored `f1` are left unchanged -- refuting the claim that only `J` is left
unchanged. -/
theorem broydenCompute_skip_f1_also_unchanged :
    normLt (vsub [3 / 2]
        (BroydenState.mk [0] [0] [[5]] [1] [2] 1).x1)
        (BroydenState.mk [0] [0] [[5]] [1] [2] 1).minstep ∧
      (broydenCompute (fun v => v) (BroydenState.mk [0] [0] [[5]] [1] [2] 1) [3 / 2]).1.f1 =
        [2] ∧
      (broydenCompute (fun v => v) (BroydenState.mk [0] [0] [[5]] [1] [2] 1) [3 / 2]).1.J =
        [[5]] ∧
      (broydenCompute (fun v => v) (BroydenState.mk [0] [0] [[5]] [1] [2] 1) [3 / 2]).1.x0 ≠
        [0] ∧
      (broydenCompute (fun v => v) (BroydenState.mk [0] [0] [[5]] [1] [2] 1) [3 / 2]).1.f0 ≠
        [0] ∧
      (broydenCompute (fun v => v) (BroydenState.mk [0] [0] [[5]] [1] [2] 1) [3 / 2]).1.x1 ≠
        [1] := by
  norm_num [broydenCompute, normLt, vsub, sumSquares]

/-- C10 (amended): a skipped `BroydenJacobian.compute(x)` call still mutates
the bookkeeping -- `x0` is advanced to the old `x1`, `f0` to the old `f1`,
and `x` is recorded as `x1` -- while BOTH the Jacobian field `J` AND the
stored value `f1` are left unchanged (not only `J`); consequently any
subsequent call measures its secant step from the skipped point `x` (its
`x0` becomes `x`) rather than from the last point where `f` was evaluated. -/
theorem broydenCompute_skip_frame (f : List ℚ → List ℚ) (s : BroydenState) (x : List ℚ)
    (hstep : normLt (vsub x s.x1) s.minstep) :
    (broydenCompute f s x).1.x0 = s.x1 ∧
      (broydenCompute f s x).1.f0 = s.f1 ∧
      (broydenCompute f s x).1.x1 = x ∧
      (broydenCompute f s x).1.J = s.J ∧
      (broydenCompute f s x).1.f1 = s.f1 ∧
      (broydenCompute f s x).1.minstep = s.minstep ∧
      ∀ (g : List ℚ → List ℚ) (x2 : List ℚ),
        (broydenCompute g (broydenCompute f s x).1 x2).1.x0 = x := by
  have hx1 : (broydenCompute f s x).1.x1 = x := by
    unfold broydenCompute
    rw [if_pos hstep]
  refine ⟨?_, ?_, hx1, ?_, ?_, ?_, ?_⟩
  · unfold broydenCompute; rw [if_pos hstep]
  · unfold broydenCompute; rw [if_pos hstep]
  · unfold broydenCompute; rw [if_pos hstep]
  · unfold broydenCompute; rw [if_pos hstep]
  · unfold broydenCompute; rw [if_pos hstep]
  · intro g x2
    conv_lhs => rw [broydenCompute]
    by_cases h2 : normLt (vsub x2 (broydenCompute f s x).1.x1) (broydenCompute f s x).1.minstep
    · rw [if_pos h2]; exact hx1
    · rw [if_neg h2]; exact hx1

/-- C10 witness: the amended frame property at the same concrete skipped call
as the counterexample. -/
theorem broydenCompute_skip_frame_witness :
    normLt (vsub [3 / 2] (BroydenState.mk [0] [0] [[5]] [1] [2] 1).x1)
        (BroydenState.mk [0] [0] [[5]] [1] [2] 1).minstep ∧
      (broydenCompute (fun v => v) (BroydenState.mk [0] [0] [[5]] [1] [2] 1) [3 / 2]).1.x0 =
        [1] := by
  have hstep : normLt (vsub [3 / 2] (BroydenState.mk [0] [0] [[5]] [1] [2] 1).x1)
      (BroydenState.mk [0] [0] [[5]] [1] [2] 1).minstep := by
    norm_num [normLt, vsub, sumSquares]
  exact ⟨hstep,
    (broydenCompute_skip_frame (fun v => v) (BroydenState.mk [0] [0] [[5]] [1] [2] 1)
      [3 / 2] hstep).1⟩

/-! ### C8: mode validation at construction time
(derivatives.py lines 75-101, 131-147 for `AutoDiffDerivative`;
lines 154-176, 280-296 for `FiniteDiffDerivative`)

Both constructors run `self.mode = mode`, whose property setter first checks
`mode not in ['fwd', 'rev', 'grad', 'hess', 'jvp']` and raises a
`ValueError` (the spec's `InvalidConfiguration` error) before dispatching
`self._compute` through an if/elif chain.  A constructed object therefore
always carries a recognized mode and a dispatched `_compute`; `compute`
(lines 103-119 and 298-314) just calls `self._compute` and performs no mode
check of its own. -/

/-- The recognized mode strings (the list literal in both setters). -/
def recognizedModes : List String := ["fwd", "rev", "grad", "hess", "jvp"]

/-- Which bound method `FiniteDiffDerivative.mode`'s if/elif chain assigns to
`self._compute`. -/
inductive FDComputeKind where
  | gradOrJac
  | hessian
  | jvpKind
deriving DecidableEq

/-- The if/elif dispatch chain of the `FiniteDiffDerivative.mode` setter
(derivatives.py lines 287-296).  `none` models falling through every branch,
which would leave `self._compute` unassigned. -/
def fdDispatch (mode : String) : Option FDComputeKind :=
  if mode = "fwd" then some .gradOrJac
  else if mode = "rev" then some .gradOrJac
  else if mode = "grad" then some .gradOrJac
  else if mode = "hess" then some .hessian
  else if mode = "jvp" then some .jvpKind
  else none

/-- Which jax transform `AutoDiffDerivative.mode`'s if/elif chain assigns to
`self._compute` (derivatives.py lines 138-147); the transforms themselves are
external to the repository, so they are identified only by tag. -/
inductive ADComputeKind where
  | jacfwdKind
  | jacrevKind
  | gradKind
  | hessianKind
  | jvpKind
deriving DecidableEq

/-- The if/elif dispatch chain of the `AutoDiffDerivative.mode` setter. -/
def adDispatch (mode : String) : Option ADComputeKind :=
  if mode = "fwd" then some .jacfwdKind
  else if mode = "rev" then some .jacrevKind
  else if mode = "grad" then some .gradKind
  else if mode = "hess" then some .hessianKind
  else if mode = "jvp" then some .jvpKind
  else none

/-- A constructed `FiniteDiffDerivative`: the attributes set by `__init__`
(the differentiated function and `argnum` are irrelevant to C8 and omitted). -/
structure FiniteDiffDerivativeObj where
  mode : String
  computeAttr : Option FDComputeKind
  relStep : ℚ

/-- Shallow embedding of `FiniteDiffDerivative.__init__` (derivatives.py
lines 154-176): stores `rel_step` and runs the `mode` setter, which raises
`ValueError` for an unrecognized mode and otherwise dispatches `_compute`. -/
def mkFiniteDiffDerivative (mode : String) (relStep : ℚ) :
    Except String FiniteDiffDerivativeObj :=
  if mode ∈ recognizedModes then
    Except.ok { mode := mode, computeAttr := fdDispatch mode, relStep := relStep }
  else
    Except.error "invalid mode option for finite difference differentiation"

/-- A constructed `AutoDiffDerivative`. -/
structure AutoDiffDerivativeObj where
  mode : String
  computeAttr : Option ADComputeKind

/-- Shallow embedding of `AutoDiffDerivative.__init__` (derivatives.py lines
75-101): runs the `mode` setter. -/
def mkAutoDiffDerivative (mode : String) : Except String AutoDiffDerivativeObj :=
  if mode ∈ recognizedModes then
    Except.ok { mode := mode, computeAttr := adDispatch mode }
  else
    Except.error "invalid mode option for automatic differentiation"

/-- C8: for both strategies, construction fails (raises the
`InvalidConfiguration` `ValueError`) exactly when the mode string is outside
`{fwd, rev, grad, hess, jvp}`, and every successfully constructed object
carries a recognized mode with a dispatched `_compute` -- so an unrecognized
mode can never reach `compute`, which performs no mode check. -/
theorem derivative_mode_validated_at_construction (mode : String) (relStep : ℚ) :
    ((∃ e, mkFiniteDiffDerivative mode relStep = Except.error e) ↔ mode ∉ recognizedModes) ∧
      ((∃ e, mkAutoDiffDerivative mode = Except.error e) ↔ mode ∉ recognizedModes) ∧
      (∀ d, mkFiniteDiffDerivative mode relStep = Except.ok d →
        d.mode ∈ recognizedModes ∧ ∃ k, d.computeAttr = some k) ∧
      (∀ d, mkAutoDiffDerivative mode = Except.ok d →
        d.mode ∈ recognizedModes ∧ ∃ k, d.computeAttr = some k) := by
  have hfd : ∀ h : mode ∈ recognizedModes, ∃ k, fdDispatch mode = some k := by
    intro h
    simp only [recognizedModes, List.mem_cons, List.mem_singleton] at h
    rcases h with h | h | h | h | h | h
    all_goals first
      | (subst h; exact ⟨_, rfl⟩)
      | exact absurd h (by simp at h)
  have had : ∀ h : mode ∈ recognizedModes, ∃ k, adDispatch mode = some k := by
    intro h
    simp only [recognizedModes, List.mem_cons, List.mem_singleton] at h
    rcases h with h | h | h | h | h | h
    all_goals first
      | (subst h; exact ⟨_, rfl⟩)
      | exact absurd h (by simp at h)
  refine ⟨?_, ?_, ?_, ?_⟩
  · constructor
    · rintro ⟨e, he⟩ hmem
      unfold mkFiniteDiffDerivative at he
      rw [if_pos hmem] at he
      exact Except.noConfusion he
    · intro hmem
      refine ⟨"invalid mode option for finite difference differentiation", ?_⟩
      unfold mkFiniteDiffDerivative
      rw [if_neg hmem]
  · constructor
    · rintro ⟨e, he⟩ hmem
      unfold mkAutoDiffDerivative at he
      rw [if_pos hmem] at he
      exact Except.noConfusion he
    · intro hmem
      refine ⟨"invalid mode option for automatic differentiation", ?_⟩
      unfold mkAutoDiffDerivative
      rw [if_neg hmem]
  · intro d hd
    unfold mkFiniteDiffDerivative at hd
    by_cases hmem : mode ∈ recognizedModes
    · rw [if_pos hmem] at hd
      cases hd
      exact ⟨hmem, hfd hmem⟩
    · rw [if_neg hmem] at hd
      exact Except.noConfusion hd
  · intro d hd
    unfold mkAutoDiffDerivative at hd
    by_cases hmem : mode ∈ recognizedModes
    · rw [if_pos hmem] at hd
      cases hd
      exact ⟨hmem, had hmem⟩
    · rw [if_neg hmem] at hd
      exact Except.noConfusion hd

/-- C8 witness: mode `"hess"` constructs a `FiniteDiffDerivative` whose
`_compute` was dispatched, and mode `"bogus"` makes `AutoDiffDerivative`
construction fail. -/
theorem derivative_mode_witness :
    (mkFiniteDiffDerivative "hess" (1 / 1000) =
        Except.ok ⟨"hess", some FDComputeKind.hessian, 1 / 1000⟩) ∧
      ("hess" ∈ recognizedModes ∧
        ∃ k, (FiniteDiffDerivativeObj.mk "hess" (some FDComputeKind.hessian)
          (1 / 1000)).computeAttr = some k) ∧
      ∃ e, mkAutoDiffDerivative "bogus" = Except.error e := by
  have hok : mkFiniteDiffDerivative "hess" (1 / 1000) =
      Except.ok ⟨"hess", some FDComputeKind.hessian, 1 / 1000⟩ := by
    simp [mkFiniteDiffDerivative, recognizedModes, fdDispatch]
  refine ⟨hok, (derivative_mode_validated_at_construction "hess" (1 / 1000)).2.2.1 _ hok, ?_⟩
  exact (derivative_mode_validated_at_construction "bogus" (1 / 1000)).2.1.mpr
    (by simp [recognizedModes])

/-! ### C5: `FiniteDiffDerivative._compute_grad_or_jac` (derivatives.py lines 222-260)

The code (with `x0 = atleast_1d(args[argnum])`, `f` the closure over the
other arguments):
```
f0 = f(x0); m = f0.size; n = x0.size
J = np.zeros((m, n))
h = np.maximum(1.0, np.abs(x0)) * rel_step
h_vecs = np.diag(np.atleast_1d(h))
for i in range(n):
    x1 = x0 - h_vecs[i]; x2 = x0 + h_vecs[i]
    dx = x2[i] - x1[i]
    f1 = f(x1); f2 = f(x2)
    df = f2 - f1; dfdx = df / dx
    J = put(J.T, i, dfdx.flatten()).T
if m == 1:
    J = np.ravel(J)
return J
```
1-D arrays are `List ℚ`, 2-D arrays are row lists; a returned numpy array
(1-D after the `ravel`, 2-D otherwise) is an `NDArr`. -/

/-- A numpy array result that is either 1-D or 2-D. -/
inductive NDArr where
  | vec (v : List ℚ)
  | mat (rows : List (List ℚ))
deriving DecidableEq

/-- The numpy shape of an `NDArr` (width of a 2-D array read off the first
row; every array built by the modelled code is rectangular). -/
def ndShape : NDArr → List ℕ
  | .vec v => [v.length]
  | .mat rows => [rows.length, (rows.headD []).length]

/-- numpy `.T` of a row-list 2-D array: column `i` becomes row `i` (width
read off the first row; all modelled code keeps arrays rectangular). -/
def npT (J : List (List ℚ)) : List (List ℚ) :=
  (List.range (J.headD []).length).map (fun i => J.map (fun row => row.getD i 0))

/-- `put(arr, i, vals)` (backend.py lines 50-65 / 91-...) with a scalar row
index on a 2-D array: functional form of `arr[i] = vals`. -/
def putRow (J : List (List ℚ)) (i : ℕ) (v : List ℚ) : List (List ℚ) := J.set i v

/-- `np.zeros((m, n))`. -/
def zerosMat (m n : ℕ) : List (List ℚ) := List.replicate m (List.replicate n 0)

/-- `np.diag(h)`: square matrix with `h` on the diagonal. -/
def npDiag (h : List ℚ) : List (List ℚ) :=
  (List.range h.length).map (fun i =>
    (List.range h.length).map (fun j => if i = j then h.getD i 0 else 0))

/-- The loop body `J = put(J.T, i, dfdx.flatten()).T` (derivatives.py line
257): transpose, overwrite row `i` of the transpose -- i.e. column `i` of
`J` -- with the already 1-D `dfdx`, transpose back. -/
def putColumnT (J : List (List ℚ)) (i : ℕ) (v : List ℚ) : List (List ℚ) :=
  npT (putRow (npT J) i v)

/-- One iteration's difference quotient `dfdx` (derivatives.py lines
250-256): `x1 = x0 - h_vecs[i]`, `x2 = x0 + h_vecs[i]`,
`dx = x2[i] - x1[i]`, `dfdx = (f(x2) - f(x1)) / dx`. -/
def fdLoopColumn (f : List ℚ → List ℚ) (relStep : ℚ) (x0 : List ℚ) (i : ℕ) : List ℚ :=
  let h := x0.map (fun xi => max 1 |xi| * relStep)
  let hvecs := npDiag h
  let x1 := vsub x0 (hvecs.getD i [])
  let x2 := vadd x0 (hvecs.getD i [])
  let dx := x2.getD i 0 - x1.getD i 0
  (vsub (f x2) (f x1)).map (fun v => v / dx)

/-- Shallow embedding of `FiniteDiffDerivative._compute_grad_or_jac`
(derivatives.py lines 222-260), the `_compute` of modes `fwd`/`rev`/`grad`. -/
def computeGradOrJac (f : List ℚ → List ℚ) (relStep : ℚ) (x0 : List ℚ) : NDArr :=
  let f0 := f x0
  let m := f0.length
  let n := x0.length
  let J := (List.range n).foldl
    (fun J i => putColumnT J i (fdLoopColumn f relStep x0 i)) (zerosMat m n)
  if m = 1 then NDArr.vec J.flatten else NDArr.mat J

/-- Specification-side perturbed point `x + c * e_i` (component `i` moved by
`c`), written independently of the loop's `h_vecs` row arithmetic. -/
def perturb (x : List ℚ) (i : ℕ) (c : ℚ) : List ℚ :=
  (List.range x.length).map (fun j => if j = i then x.getD j 0 + c else x.getD j 0)

/-- Specification-side per-component step `h_i = rel_step * max(1, |x_i|)`. -/
def fdStep (relStep : ℚ) (x : List ℚ) (i : ℕ) : ℚ :=
  relStep * max 1 |x.getD i 0|

/-- Specification-side central-difference column
`(f(x + h_i e_i) - f(x - h_i e_i)) / (2 h_i)`. -/
def centralDiffColumn (f : List ℚ → List ℚ) (relStep : ℚ) (x : List ℚ) (i : ℕ) : List ℚ :=
  vdivs
    (vsub (f (perturb x i (fdStep relStep x i))) (f (perturb x i (-fdStep relStep x i))))
    (2 * fdStep relStep x i)

/-! Proof infrastructure for the finite-difference loop: canonical
matrices-as-nested-maps and element access lemmas. -/

/-- The m-by-n matrix with entry `g r j` in row `r`, column `j`. -/
def mkMat (m n : ℕ) (g : ℕ → ℕ → ℚ) : List (List ℚ) :=
  (List.range m).map (fun r => (List.range n).map (fun j => g r j))

theorem getD_map_range (g : ℕ → ℚ) (n i : ℕ) :
    ((List.range n).map g).getD i 0 = if i < n then g i else 0 := by
  rw [List.getD_eq_getElem?_getD, List.getElem?_map]
  by_cases h : i < n
  · rw [List.getElem?_range h]
    simp [h]
  · rw [List.getElem?_eq_none (by simpa using Nat.le_of_not_lt h)]
    simp [h]

theorem getD_map (g : ℚ → ℚ) (x : List ℚ) (i : ℕ) (h : i < x.length) :
    (x.map g).getD i 0 = g (x.getD i 0) := by
  rw [List.getD_eq_getElem?_getD, List.getElem?_map, List.getElem?_eq_getElem h]
  simp [List.getD_eq_getElem?_getD, List.getElem?_eq_getElem h]

theorem list_eq_map_range_getD (v : List ℚ) :
    v = (List.range v.length).map (fun r => v.getD r 0) := by
  apply List.ext_getElem?
  intro r
  by_cases h : r < v.length
  · rw [List.getElem?_eq_getElem h, List.getElem?_map, List.getElem?_range h]
    simp [List.getD_eq_getElem?_getD, List.getElem?_eq_getElem h]
  · rw [List.getElem?_eq_none (by omega), List.getElem?_eq_none (by simpa using Nat.le_of_not_lt h)]

theorem mkMat_congr (m n : ℕ) (g g' : ℕ → ℕ → ℚ)
    (h : ∀ r < m, ∀ j < n, g r j = g' r j) : mkMat m n g = mkMat m n g' := by
  unfold mkMat
  refine List.map_congr_left ?_
  intro r hr
  refine List.map_congr_left ?_
  intro j hj
  exact h r (List.mem_range.mp hr) j (List.mem_range.mp hj)

theorem mkMat_length (m n : ℕ) (g : ℕ → ℕ → ℚ) : (mkMat m n g).length = m := by
  simp [mkMat]

theorem mkMat_headD (m n : ℕ) (g : ℕ → ℕ → ℚ) (hm : 0 < m) :
    (mkMat m n g).headD [] = (List.range n).map (fun j => g 0 j) := by
  obtain ⟨k, rfl⟩ : ∃ k, m = k + 1 := ⟨m - 1, by omega⟩
  unfold mkMat
  rw [List.range_succ_eq_map]
  rfl

theorem zerosMat_eq_mkMat (m n : ℕ) : zerosMat m n = mkMat m n (fun _ _ => 0) := by
  simp [zerosMat, mkMat, List.map_const']


theorem npT_mkMat (m n : ℕ) (g : ℕ → ℕ → ℚ) (hm : 0 < m) :
    npT (mkMat m n g) = mkMat n m (fun j r => g r j) := by
  unfold npT
  rw [mkMat_headD m n g hm]
  rw [List.length_map, List.length_range]
  unfold mkMat
  refine List.map_congr_left ?_
  intro j hj
  rw [List.map_map]
  refine List.map_congr_left ?_
  intro r _
  show ((List.range n).map (fun i => g r i)).getD j 0 = g r j
  rw [getD_map_range]
  simp [List.mem_range.mp hj]

theorem set_map_range (n i : ℕ) (hi : i < n) (F : ℕ → List ℚ) (v : List ℚ) :
    ((List.range n).map F).set i v = (List.range n).map (fun j => if j = i then v else F j) := by
  apply List.ext_getElem?
  intro j
  by_cases hj : j < n
  · by_cases hji : i = j
    · subst hji
      rw [List.getElem?_set_eq_of_lt _ (by simpa using hi)]
      rw [List.getElem?_map, List.getElem?_range hj]
      simp
    · rw [List.getElem?_set_ne hji]
      rw [List.getElem?_map, List.getElem?_range hj,
        List.getElem?_map, List.getElem?_range hj]
      simp [Ne.symm hji]
  · rw [List.getElem?_eq_none (by simp; omega), List.getElem?_eq_none (by simp; omega)]

theorem putColumnT_nil (i : ℕ) (v : List ℚ) : putColumnT [] i v = [] := by
  simp [putColumnT, npT, putRow]

theorem putColumnT_mkMat (m n i : ℕ) (g : ℕ → ℕ → ℚ) (v : List ℚ)
    (hm : 0 < m) (hi : i < n) (hv : v.length = m) :
    putColumnT (mkMat m n g) i v =
      mkMat m n (fun r j => if j = i then v.getD r 0 else g r j) := by
  unfold putColumnT putRow
  rw [npT_mkMat m n g hm]
  rw [show mkMat n m (fun j r => g r j) = (List.range n).map
      (fun j => (List.range m).map (fun r => g r j)) from rfl]
  rw [set_map_range n i hi]
  have hv' : v = (List.range m).map (fun r => v.getD r 0) := by
    conv_lhs => rw [list_eq_map_range_getD v]
    rw [hv]
  have : ((List.range n).map fun j =>
      if j = i then v else (List.range m).map (fun r => g r j)) =
      mkMat n m (fun j r => if j = i then v.getD r 0 else g r j) := by
    unfold mkMat
    refine List.map_congr_left ?_
    intro j _
    by_cases hji : j = i
    · simp only [hji, if_pos rfl]
      exact hv'
    · simp only [hji, if_neg hji]
      simp
  rw [this, npT_mkMat n m _ (by omega)]

theorem foldl_putColumnT (cols : ℕ → List ℚ) (m n : ℕ)
    (hcols : ∀ i, i < n → (cols i).length = m) :
    ∀ k, k ≤ n →
      (List.range k).foldl (fun J i => putColumnT J i (cols i)) (zerosMat m n) =
        mkMat m n (fun r j => if j < k then (cols j).getD r 0 else 0) := by
  intro k
  induction k with
  | zero =>
    intro _
    rw [List.range_zero, List.foldl_nil, zerosMat_eq_mkMat]
    exact mkMat_congr _ _ _ _ (fun r _ j _ => by simp)
  | succ k ih =>
    intro hk
    have hrs : List.range (k + 1) = List.range k ++ [k] := by
      simpa using List.range_succ (n := k)
    rw [hrs, List.foldl_append, ih (by omega), List.foldl_cons, List.foldl_nil]
    by_cases hm : 0 < m
    · rw [putColumnT_mkMat m n k _ (cols k) hm (by omega) (hcols k (by omega))]
      refine mkMat_congr _ _ _ _ ?_
      intro r _ j _
      by_cases hjk : j = k
      · simp [hjk]
      · simp only [if_neg hjk]
        by_cases hlt : j < k
        · rw [if_pos hlt, if_pos (by omega)]
        · rw [if_neg hlt, if_neg (by omega)]
    · have hm0 : m = 0 := by omega
      subst hm0
      rw [show mkMat 0 n (fun r j => if j < k then (cols j).getD r 0 else 0) = [] from rfl]
      rw [putColumnT_nil]
      rfl

theorem vadd_diagRow (x : List ℚ) (i : ℕ) (c : ℚ) :
    vadd x ((List.range x.length).map (fun j => if i = j then c else 0)) =
      perturb x i c := by
  apply List.ext_getElem?
  intro j
  by_cases hj : j < x.length
  · rw [show vadd x ((List.range x.length).map (fun j => if i = j then c else 0)) =
        List.zipWith (· + ·) x ((List.range x.length).map (fun j => if i = j then c else 0))
      from rfl]
    rw [List.getElem?_eq_getElem (l := List.zipWith _ _ _) (by simp [List.length_zipWith]; omega)]
    rw [List.getElem_zipWith]
    unfold perturb
    rw [List.getElem?_map, List.getElem?_range hj]
    simp only [List.getElem_map, List.getElem_range, Option.map_some]
    congr 1
    have hgd : x[j] = x.getD j 0 := by
      simp [List.getD_eq_getElem?_getD, List.getElem?_eq_getElem hj]
    by_cases hij : j = i
    · subst hij
      simp [hgd]
    · simp [hgd, Ne.symm hij, hij]
  · rw [List.getElem?_eq_none (by simp [vadd, List.length_zipWith]; omega),
      List.getElem?_eq_none (by simp [perturb]; omega)]

theorem vsub_diagRow (x : List ℚ) (i : ℕ) (c : ℚ) :
    vsub x ((List.range x.length).map (fun j => if i = j then c else 0)) =
      perturb x i (-c) := by
  apply List.ext_getElem?
  intro j
  by_cases hj : j < x.length
  · rw [show vsub x ((List.range x.length).map (fun j => if i = j then c else 0)) =
        List.zipWith (· - ·) x ((List.range x.length).map (fun j => if i = j then c else 0))
      from rfl]
    rw [List.getElem?_eq_getElem (l := List.zipWith _ _ _) (by simp [List.length_zipWith]; omega)]
    rw [List.getElem_zipWith]
    unfold perturb
    rw [List.getElem?_map, List.getElem?_range hj]
    simp only [List.getElem_map, List.getElem_range, Option.map_some]
    congr 1
    have hgd : x[j] = x.getD j 0 := by
      simp [List.getD_eq_getElem?_getD, List.getElem?_eq_getElem hj]
    by_cases hij : j = i
    · subst hij
      simp [hgd, sub_eq_add_neg]
    · simp [hgd, Ne.symm hij, hij]
  · rw [List.getElem?_eq_none (by simp [vsub, List.length_zipWith]; omega),
      List.getElem?_eq_none (by simp [perturb]; omega)]

theorem perturb_getD_self (x : List ℚ) (i : ℕ) (c : ℚ) (hi : i < x.length) :
    (perturb x i c).getD i 0 = x.getD i 0 + c := by
  unfold perturb
  rw [getD_map_range]
  simp [hi]

theorem perturb_length (x : List ℚ) (i : ℕ) (c : ℚ) : (perturb x i c).length = x.length := by
  simp [perturb]

/-- The `i`-th loop iteration of `_compute_grad_or_jac` computes exactly the
central-difference column `(f(x + h_i e_i) - f(x - h_i e_i)) / (2 h_i)` with
`h_i = rel_step * max(1, |x_i|)`. -/
theorem fdLoopColumn_eq_centralDiffColumn (f : List ℚ → List ℚ) (relStep : ℚ)
    (x0 : List ℚ) (i : ℕ) (hi : i < x0.length) :
    fdLoopColumn f relStep x0 i = centralDiffColumn f relStep x0 i := by
  have hlen : (x0.map (fun xi => max 1 |xi| * relStep)).length = x0.length := by simp
  have hc : (x0.map (fun xi => max 1 |xi| * relStep)).getD i 0 = fdStep relStep x0 i := by
    rw [getD_map _ _ _ hi]
    unfold fdStep
    rw [mul_comm]
  have hrow : (npDiag (x0.map (fun xi => max 1 |xi| * relStep))).getD i [] =
      (List.range x0.length).map (fun j => if i = j then fdStep relStep x0 i else 0) := by
    unfold npDiag
    rw [List.getD_eq_getElem?_getD, List.getElem?_map,
      List.getElem?_range (by rw [hlen]; exact hi)]
    simp only [Option.map_some', Option.getD_some, hlen, hc]
  show (vsub
      (f (vadd x0 ((npDiag (x0.map (fun xi => max 1 |xi| * relStep))).getD i [])))
      (f (vsub x0 ((npDiag (x0.map (fun xi => max 1 |xi| * relStep))).getD i [])))).map
        (fun v => v /
          ((vadd x0 ((npDiag (x0.map (fun xi => max 1 |xi| * relStep))).getD i [])).getD i 0 -
            (vsub x0 ((npDiag (x0.map (fun xi => max 1 |xi| * relStep))).getD i [])).getD i 0)) =
    centralDiffColumn f relStep x0 i
  rw [hrow, vadd_diagRow, vsub_diagRow]
  rw [perturb_getD_self x0 i _ hi, perturb_getD_self x0 i _ hi]
  unfold centralDiffColumn vdivs
  congr 1
  funext v
  congr 1
  ring

theorem centralDiffColumn_length (f : List ℚ → List ℚ) (relStep : ℚ) (x0 : List ℚ)
    (i : ℕ) (m : ℕ) (hm : ∀ y, (f y).length = m) :
    (centralDiffColumn f relStep x0 i).length = m := by
  simp [centralDiffColumn, vdivs, vsub, List.length_zipWith, hm]

/-- Shared characterization of `_compute_grad_or_jac`: the Jacobian is
assembled column by column from central-difference quotients, and an output
of size 1 is returned raveled to a flat vector. -/
theorem fdJacobianEq (f : List ℚ → List ℚ) (relStep : ℚ)
    (x0 : List ℚ) (m : ℕ) (hm : ∀ y, (f y).length = m) :
    computeGradOrJac f relStep x0 =
      if m = 1 then
        NDArr.vec ((List.range x0.length).map
          (fun i => (centralDiffColumn f relStep x0 i).getD 0 0))
      else
        NDArr.mat (mkMat m x0.length
          (fun r i => (centralDiffColumn f relStep x0 i).getD r 0)) := by
  have hcols : ∀ i, i < x0.length → (fdLoopColumn f relStep x0 i).length = m := by
    intro i hi
    rw [fdLoopColumn_eq_centralDiffColumn f relStep x0 i hi]
    exact centralDiffColumn_length f relStep x0 i m hm
  have hfold : (List.range x0.length).foldl
      (fun J i => putColumnT J i (fdLoopColumn f relStep x0 i)) (zerosMat m x0.length) =
      mkMat m x0.length (fun r i => (centralDiffColumn f relStep x0 i).getD r 0) := by
    rw [foldl_putColumnT (fdLoopColumn f relStep x0) m x0.length hcols x0.length le_rfl]
    refine mkMat_congr _ _ _ _ ?_
    intro r _ i hi
    rw [if_pos hi, fdLoopColumn_eq_centralDiffColumn f relStep x0 i hi]
  show (if (f x0).length = 1 then
      NDArr.vec ((List.range x0.length).foldl
        (fun J i => putColumnT J i (fdLoopColumn f relStep x0 i))
        (zerosMat (f x0).length x0.length)).flatten
    else NDArr.mat ((List.range x0.length).foldl
        (fun J i => putColumnT J i (fdLoopColumn f relStep x0 i))
        (zerosMat (f x0).length x0.length))) = _
  rw [hm x0, hfold]
  by_cases h1 : m = 1
  · subst h1
    rw [if_pos rfl, if_pos rfl]
    congr 1
    show (mkMat 1 x0.length _).flatten = _
    unfold mkMat
    rw [show List.range 1 = [0] from rfl]
    simp

  · rw [if_neg h1, if_neg h1]

/-- C5: `FiniteDiffDerivative` in `fwd` mode computes the Jacobian column by
column: column `i` is the central difference
`(f(x + h_i e_i) - f(x - h_i e_i)) / (2 h_i)` with per-component step
`h_i = rel_step * max(1, |x_i|)`; and when the output of `f` has size 1 the
returned Jacobian is the flat 1-D vector of those single-entry columns
rather than a 1-by-n matrix. -/
theorem computeGradOrJac_central_differences (f : List ℚ → List ℚ) (relStep : ℚ)
    (x0 : List ℚ) (m : ℕ) (hm : ∀ y, (f y).length = m) :
    computeGradOrJac f relStep x0 =
      if m = 1 then
        NDArr.vec ((List.range x0.length).map
          (fun i => (centralDiffColumn f relStep x0 i).getD 0 0))
      else
        NDArr.mat (mkMat m x0.length
          (fun r i => (centralDiffColumn f relStep x0 i).getD r 0)) :=
  fdJacobianEq f relStep x0 m hm

/-- C5 witness: the spec's smooth test function `f(x) = [x0^2, x0*x1]`
(output size 2) at `x = [2, 3]` with `rel_step = 1e-3`; the computed Jacobian
is the 2-by-2 matrix of central-difference columns. -/
theorem computeGradOrJac_central_witness :
    (∀ y : List ℚ,
        ((fun y : List ℚ => [y.getD 0 0 ^ 2, y.getD 0 0 * y.getD 1 0]) y).length = 2) ∧
      computeGradOrJac (fun y : List ℚ => [y.getD 0 0 ^ 2, y.getD 0 0 * y.getD 1 0])
          (1 / 1000) [2, 3] =
        NDArr.mat (mkMat 2 2 (fun r i =>
          (centralDiffColumn (fun y : List ℚ => [y.getD 0 0 ^ 2, y.getD 0 0 * y.getD 1 0])
            (1 / 1000) [2, 3] i).getD r 0)) := by
  refine ⟨fun y => rfl, ?_⟩
  rw [computeGradOrJac_central_differences
    (fun y : List ℚ => [y.getD 0 0 ^ 2, y.getD 0 0 * y.getD 1 0]) (1 / 1000) [2, 3] 2
    (fun y => rfl)]
  norm_num

/-! ### C4: `_Objective._set_derivatives` (objective_funs.py lines 629-678)

For each `arg` in the canonical order, if `arg` is a parameter of the
objective's `compute`, a `Derivative(self.compute, argnum=args.index(arg),
mode="fwd", ...)` is stored, and -- since `_set_derivatives` "is only used
for linear objectives" (line 635) -- immediately evaluated at all-zero
arguments to a constant matrix; otherwise
`np.zeros((self.dim_f, self.dimensions[arg]))` is stored.  The
`Derivative` here is the backend-selected class (derivatives.py lines
317-320); the in-repository numeric backend is `FiniteDiffDerivative`
(default `rel_step = 1e-3`), whose `fwd` mode is `_compute_grad_or_jac`
modelled above as `computeGradOrJac`. -/

/-- The canonical state-vector argument names.  The SET of recognized names
is fixed by `_Objective._set_dimensions` (objective_funs.py lines 617-627)
and by the zero-kwargs dict (lines 636-645); their canonical ORDER is
`desc.compute.arg_order`, whose defining module is not among the staged
sources -- the order used here is modelled from the spec's state-vector
description (spectral coefficients, boundary coefficients, profile
parameters, flux `Psi`). -/
def argOrder : List String :=
  ["R_lmn", "Z_lmn", "L_lmn", "Rb_lmn", "Zb_lmn", "p_l", "i_l", "Psi"]

/-- A built linear objective as `_set_derivatives` sees it: the parameter
names of its `compute` (`getfullargspec(self.compute)[0][1:]`), the
per-argument dimensions, `dim_f`, and the residual function itself (keyword
arguments modelled as a name-indexed family of vectors). -/
structure LinearObjectiveModel where
  args : List String
  dims : String → ℕ
  dimF : ℕ
  compute : (String → List ℚ) → List ℚ

/-- The all-zero keyword arguments (objective_funs.py lines 636-645):
each recognized argument bound to a zero vector of its dimension. -/
def zeroKwargs (obj : LinearObjectiveModel) : String → List ℚ :=
  fun a => List.replicate (obj.dims a) 0

/-- Shallow embedding of one `arg` iteration of the `_set_derivatives` loop
(objective_funs.py lines 649-673), linear-objective path with the
finite-difference backend: for `arg` among the compute parameters, the
constant Jacobian of `compute` in `arg` at the zero arguments; otherwise
the zero matrix `np.zeros((dim_f, dimensions[arg]))`. -/
def setDerivativeFor (obj : LinearObjectiveModel) (arg : String) : NDArr :=
  if arg ∈ obj.args then
    computeGradOrJac
      (fun v => obj.compute (fun a => if a = arg then v else zeroKwargs obj a))
      (1 / 1000)
      (zeroKwargs obj arg)
  else
    NDArr.mat (zerosMat obj.dimF (obj.dims arg))

theorem ndShape_mat (rows : List (List ℚ)) :
    ndShape (NDArr.mat rows) = [rows.length, (rows.headD []).length] := rfl

theorem ndShape_vec (v : List ℚ) : ndShape (NDArr.vec v) = [v.length] := rfl

theorem zerosMat_headD (m n : ℕ) (hm : 0 < m) :
    (zerosMat m n).headD [] = List.replicate n 0 := by
  obtain ⟨k, rfl⟩ : ∃ k, m = k + 1 := ⟨m - 1, by omega⟩
  rfl

/-- Model of `FixedPsi` (linear_objectives.py lines 637-720) built with
`target = 2`, `weight = 1` on an equilibrium where every argument dimension
is 1: `dim_f = 1`, `compute(Psi) = (Psi - target) * weight`, and `Psi` is
the only compute parameter. -/
def fixedPsiObj : LinearObjectiveModel where
  args := ["Psi"]
  dims := fun _ => 1
  dimF := 1
  compute := fun kw => vmul (vsub [(kw "Psi").getD 0 0] [2]) [1]

/-- C4 counterexample: for the built linear objective `FixedPsi`
(`dim_f = 1`), the finite-difference backend's `_compute_grad_or_jac` ravels
the 1-by-1 Jacobian (derivatives.py lines 258-259), so
`derivatives["Psi"]` is a flat vector of shape `(1,)`, not the claimed
`(dim_f, dimensions["Psi"]) = (1, 1)` matrix. -/
theorem setDerivativeFor_dimF_one_not_matrix :
    fixedPsiObj.dimF = 1 ∧ fixedPsiObj.dims "Psi" = 1 ∧ "Psi" ∈ argOrder ∧
      "Psi" ∈ fixedPsiObj.args ∧
      ndShape (setDerivativeFor fixedPsiObj "Psi") = [1] ∧
      ndShape (setDerivativeFor fixedPsiObj "Psi") ≠
        [fixedPsiObj.dimF, fixedPsiObj.dims "Psi"] := by
  have hres : setDerivativeFor fixedPsiObj "Psi" =
      computeGradOrJac
        (fun v => fixedPsiObj.compute (fun a => if a = "Psi" then v else zeroKwargs fixedPsiObj a))
        (1 / 1000) (zeroKwargs fixedPsiObj "Psi") := by
    unfold setDerivativeFor
    rw [if_pos (by simp [fixedPsiObj])]
  have hjac := fdJacobianEq
    (fun v => fixedPsiObj.compute (fun a => if a = "Psi" then v else zeroKwargs fixedPsiObj a))
    (1 / 1000) (zeroKwargs fixedPsiObj "Psi") 1 (fun y => rfl)
  rw [if_pos rfl] at hjac
  refine ⟨rfl, rfl, by simp [argOrder], by simp [fixedPsiObj], ?_, ?_⟩
  · rw [hres, hjac]
    simp [ndShape, zeroKwargs, fixedPsiObj]
  · rw [hres, hjac]
    simp [ndShape, zeroKwargs, fixedPsiObj]

/-- C4 (amended): for every built linear objective and recognized argument
name, the stored derivative block for an argument NOT taken by `compute` is
the all-zero matrix of shape `(dim_f, dimensions[arg])`; for an argument
taken by `compute` the stored finite-difference Jacobian has shape
`(dim_f, dimensions[arg])` whenever `dim_f ≠ 1`, but for `dim_f == 1` it is
raveled to a flat vector of shape `(dimensions[arg],)`. -/
theorem setDerivativeFor_shape (obj : LinearObjectiveModel) (arg : String)
    (hdim : 0 < obj.dimF)
    (hlen : ∀ kw, (obj.compute kw).length = obj.dimF) :
    (arg ∉ obj.args →
      ndShape (setDerivativeFor obj arg) = [obj.dimF, obj.dims arg] ∧
        ∃ rows, setDerivativeFor obj arg = NDArr.mat rows ∧
          ∀ row ∈ rows, ∀ e ∈ row, e = (0 : ℚ)) ∧
      (arg ∈ obj.args → obj.dimF ≠ 1 →
        ndShape (setDerivativeFor obj arg) = [obj.dimF, obj.dims arg]) ∧
      (arg ∈ obj.args → obj.dimF = 1 →
        ndShape (setDerivativeFor obj arg) = [obj.dims arg]) := by
  refine ⟨?_, ?_, ?_⟩
  · intro hnot
    have hz : setDerivativeFor obj arg = NDArr.mat (zerosMat obj.dimF (obj.dims arg)) := by
      unfold setDerivativeFor
      rw [if_neg hnot]
    refine ⟨?_, zerosMat obj.dimF (obj.dims arg), hz, ?_⟩
    · rw [hz, ndShape_mat, zerosMat_headD _ _ hdim]
      simp [zerosMat]
    · intro row hrow e he
      rcases List.eq_of_mem_replicate hrow with rfl
      exact List.eq_of_mem_replicate he
  · intro hmem hne
    have hjac := fdJacobianEq
      (fun v => obj.compute (fun a => if a = arg then v else zeroKwargs obj a))
      (1 / 1000) (zeroKwargs obj arg) obj.dimF (fun y => hlen _)
    rw [if_neg hne] at hjac
    unfold setDerivativeFor
    rw [if_pos hmem, hjac, ndShape_mat, mkMat_length, mkMat_headD _ _ _ hdim]
    simp [zeroKwargs]
  · intro hmem hone
    have hjac := fdJacobianEq
      (fun v => obj.compute (fun a => if a = arg then v else zeroKwargs obj a))
      (1 / 1000) (zeroKwargs obj arg) obj.dimF (fun y => hlen _)
    rw [if_pos hone] at hjac
    unfold setDerivativeFor
    rw [if_pos hmem, hjac, ndShape_vec]
    simp [zeroKwargs]

/-- Model of a two-mode `FixedBoundaryR`-style linear objective:
`dim_f = 2`, `compute` reads the two `Rb_lmn` coefficients. -/
def twoModeObj : LinearObjectiveModel where
  args := ["Rb_lmn"]
  dims := fun a => if a = "Rb_lmn" then 2 else 1
  dimF := 2
  compute := fun kw => [(kw "Rb_lmn").getD 0 0 - 1, (kw "Rb_lmn").getD 1 0 - 3]

/-- C4 witness: for the two-mode objective, the stored Jacobian in its own
argument has shape `(2, 2)` and the zero block for the absent `Psi`
argument has shape `(2, 1)`. -/
theorem setDerivativeFor_shape_witness :
    0 < twoModeObj.dimF ∧ (∀ kw, (twoModeObj.compute kw).length = twoModeObj.dimF) ∧
      ndShape (setDerivativeFor twoModeObj "Rb_lmn") = [2, 2] ∧
      ndShape (setDerivativeFor twoModeObj "Psi") = [2, 1] := by
  refine ⟨by norm_num [twoModeObj], fun kw => rfl, ?_, ?_⟩
  · have h := (setDerivativeFor_shape twoModeObj "Rb_lmn" (by norm_num [twoModeObj])
      (fun kw => rfl)).2.1 (by simp [twoModeObj]) (by norm_num [twoModeObj])
    simpa [twoModeObj] using h
  · have h := ((setDerivativeFor_shape twoModeObj "Psi" (by norm_num [twoModeObj])
      (fun kw => rfl)).1 (by simp [twoModeObj])).1
    simpa [twoModeObj] using h

/-! ### C6: `BlockJacobian` (derivatives.py lines 423-503)

With `num_blocks = k` the constructor sets
`block_size = ceil(N / num_blocks)`, builds
`f_blocks[i] = lambda x: fun(x)[i*block_size : (i+1)*block_size]` and
`jac_blocks[i] = jacrev(f_blocks[i])`; `compute(x)` returns
`np.vstack([jac(x) for jac in jac_blocks])`.

Note the module-level defect: `derivatives.py` imports only `TextColors`,
`use_jax`, `put` from the backend and, when jax is present, the bare module
`jax`; the names `jacrev` (line 499) and `jit` (line 497) are never bound,
so `BlockJacobian.__init__` always raises `NameError` before any Jacobian
is computed.  The intended semantics below therefore takes the row-indexed
Jacobian operator (`jacrev`, an external jax primitive in the intended
code) as a parameter; its one relevant property is that differentiation
commutes with slicing output rows. -/

/-- Python slice `l[a:b]` for `0 ≤ a ≤ b`. -/
def pySlice {α : Type} (l : List α) (a b : ℕ) : List α := (l.drop a).take (b - a)

/-- `np.ceil(N / k).astype(int)` for positive integers. -/
def ceilDiv (N k : ℕ) : ℕ := (N + k - 1) / k

/-- Shallow embedding of `BlockJacobian(fun, N, M, num_blocks=k).compute(x)`
(with the missing `jacrev` import fixed): `jacOp` is the Jacobian operator,
`f_blocks[i]` slices rows `[i*bs, (i+1)*bs)` of the output, and the result
is the row-wise `vstack` of the per-block Jacobians. -/
def blockJacCompute (jacOp : (List ℚ → List ℚ) → List ℚ → List (List ℚ))
    (f : List ℚ → List ℚ) (N k : ℕ) (x : List ℚ) : List (List ℚ) :=
  let bs := ceilDiv N k
  ((List.range k).map
    (fun i => jacOp (fun y => pySlice (f y) (i * bs) ((i + 1) * bs)) x)).flatten

theorem ceilDiv_of_dvd (N k : ℕ) (hk : 0 < k) (hdvd : k ∣ N) : ceilDiv N k = N / k := by
  obtain ⟨q, rfl⟩ := hdvd
  obtain ⟨p, rfl⟩ : ∃ p, k = p + 1 := ⟨k - 1, by omega⟩
  unfold ceilDiv
  rw [Nat.mul_div_cancel_left q (by omega)]
  have h1 : (p + 1) * q + (p + 1) - 1 = (p + 1) * q + p := by
    generalize (p + 1) * q = a
    omega
  rw [h1, Nat.mul_add_div (by omega), Nat.div_eq_of_lt (by omega)]
  omega

/-- Successive size-`bs` slices reassemble an initial segment. -/
theorem flatten_chunks {α : Type} (l : List α) (bs : ℕ) :
    ∀ k : ℕ, ((List.range k).map (fun i => pySlice l (i * bs) ((i + 1) * bs))).flatten =
      l.take (k * bs) := by
  intro k
  induction k with
  | zero => simp
  | succ k ih =>
    have hrs : List.range (k + 1) = List.range k ++ [k] := by
      simpa using List.range_succ (n := k)
    rw [hrs, List.map_append, List.flatten_append, ih]
    have hslice : pySlice l (k * bs) ((k + 1) * bs) = (l.drop (k * bs)).take bs := by
      unfold pySlice
      congr 1
      rw [Nat.succ_mul]
      omega
    rw [show ([k].map (fun i => pySlice l (i * bs) ((i + 1) * bs))).flatten =
        pySlice l (k * bs) ((k + 1) * bs) from by simp]
    rw [hslice, ← List.take_add, Nat.succ_mul]

/-- C6 (intended behavior): for every Jacobian operator that commutes with
slicing output rows and assigns one Jacobian row per output component, the
Block strategy with `num_blocks = k`, for `k` dividing the output dimension
`N`, computes exactly the unblocked Jacobian, as the row-wise concatenation
of the `k` contiguous row blocks. -/
theorem blockJacCompute_eq_unblocked
    (jacOp : (List ℚ → List ℚ) → List ℚ → List (List ℚ))
    (f : List ℚ → List ℚ) (N k : ℕ) (x : List ℚ)
    (hk : 0 < k) (hdvd : k ∣ N)
    (hrows : (jacOp f x).length = N)
    (hslice : ∀ a b : ℕ,
      jacOp (fun y => pySlice (f y) a b) x = pySlice (jacOp f x) a b) :
    blockJacCompute jacOp f N k x = jacOp f x := by
  unfold blockJacCompute
  rw [ceilDiv_of_dvd N k hk hdvd]
  show ((List.range k).map
      (fun i => jacOp (fun y => pySlice (f y) (i * (N / k)) ((i + 1) * (N / k))) x)).flatten =
    jacOp f x
  have hmap : (List.range k).map
      (fun i => jacOp (fun y => pySlice (f y) (i * (N / k)) ((i + 1) * (N / k))) x) =
      (List.range k).map
      (fun i => pySlice (jacOp f x) (i * (N / k)) ((i + 1) * (N / k))) := by
    refine List.map_congr_left ?_
    intro i _
    exact hslice _ _
  rw [hmap, flatten_chunks (jacOp f x) (N / k) k]
  rw [List.take_of_length_le]
  rw [hrows, Nat.mul_div_cancel' hdvd]

/-- The leave-one-out Jacobian operator used to witness C6: row `r` of
`jacOpOuter g x` is `g(x)_r * x`; it commutes with output slicing and has
one row per output component. -/
def jacOpOuter (g : List ℚ → List ℚ) (x : List ℚ) : List (List ℚ) :=
  (g x).map (fun gi => x.map (fun xj => gi * xj))

/-- C6 witness: a 4-component function split into 2 blocks under the
slicing-compatible operator `jacOpOuter` reassembles to the unblocked
Jacobian at `x = [5, 7]`. -/
theorem blockJacCompute_eq_unblocked_witness :
    0 < 2 ∧ 2 ∣ 4 ∧
      (jacOpOuter (fun y => [y.getD 0 0, y.getD 1 0, y.getD 0 0 + y.getD 1 0,
        y.getD 0 0 * y.getD 1 0]) [5, 7]).length = 4 ∧
      blockJacCompute jacOpOuter
          (fun y => [y.getD 0 0, y.getD 1 0, y.getD 0 0 + y.getD 1 0,
            y.getD 0 0 * y.getD 1 0]) 4 2 [5, 7] =
        jacOpOuter (fun y => [y.getD 0 0, y.getD 1 0, y.getD 0 0 + y.getD 1 0,
          y.getD 0 0 * y.getD 1 0]) [5, 7] := by
  refine ⟨by norm_num, by norm_num, rfl, ?_⟩
  refine blockJacCompute_eq_unblocked jacOpOuter _ 4 2 [5, 7] (by norm_num) (by norm_num)
    rfl ?_
  intro a b
  simp [jacOpOuter, pySlice, List.map_take, List.map_drop]

/-! ### C2 / C3: `ObjectiveFunction._build_linear_constraints`, `project`,
`recover` (objective_funs.py lines 88-128, 329-346)

The code stacks the constraint blocks into `A` and targets into `b`, and
(with at least one constraint) computes
```
u, s, vh = np.linalg.svd(A, full_matrices=True)
K = min(M, N); rcond = eps * max(M, N); tol = max(s) * rcond
large = s > tol; num = sum(large)
uk = u[:, :K]; vhk = vh[:K, :]
s = 1/s where large else 0
Ainv = vhk.T @ (s[:, None] * uk.T)
y0 = Ainv @ b
Z = vh[num:, :].T.conj()
dim_x = Z.shape[1]
```
`np.linalg.svd` is an external library call; it is modelled by its
documented exact-arithmetic contract: `A = u @ Σ @ vh` with `u`, `vh`
orthogonal and the singular values on `Σ`'s diagonal nonnegative and
descending.  In exact arithmetic the floating tolerance `tol = max(s) *
eps * max(M, N)` degenerates to `0`, so `large` selects the nonzero
singular values.  Matrices are real (`.conj()` is the identity), modelled
over an arbitrary linear ordered field so that witnesses can be rational.

`project(y) = Z.T @ (y - y0)` and `recover(x) = y0 + Z @ x`
(`jnp.squeeze` only collapses singleton axes and is the identity on the
1-D vectors modelled here). -/

section ConstraintElimination

open Matrix

variable {F : Type} [LinearOrderedField F] {M N : ℕ}

/-- The rectangular M-by-N diagonal matrix `Σ` carrying the singular values:
the reconstruction shape of `np.linalg.svd(A, full_matrices=True)`. -/
def sigmaMat (M N : ℕ) (s : Fin (min M N) → F) : Matrix (Fin M) (Fin N) F :=
  Matrix.of fun i j =>
    if h : (i : ℕ) = (j : ℕ) then s ⟨i, lt_min i.isLt (lt_of_eq_of_lt h j.isLt)⟩ else 0

/-- `num = np.sum(large, dtype=int)` with the exact-arithmetic tolerance:
the number of nonzero (positive) singular values. -/
def numLarge {K : ℕ} (s : Fin K → F) : ℕ :=
  (Finset.univ.filter (fun i => 0 < s i)).card

/-- `uk = u[:, :K]`. -/
def svdUk (u : Matrix (Fin M) (Fin M) F) : Matrix (Fin M) (Fin (min M N)) F :=
  Matrix.of fun i k => u i ⟨k, lt_of_lt_of_le k.isLt (min_le_left M N)⟩

/-- `vhk = vh[:K, :]`. -/
def svdVhk (vh : Matrix (Fin N) (Fin N) F) : Matrix (Fin (min M N)) (Fin N) F :=
  Matrix.of fun k j => vh ⟨k, lt_of_lt_of_le k.isLt (min_le_right M N)⟩ j

/-- `np.divide(1, s, where=large, out=s); s[~large] = 0`: reciprocals of the
nonzero singular values, zero elsewhere. -/
def sInvVec {K : ℕ} (s : Fin K → F) : Fin K → F :=
  fun i => if 0 < s i then (s i)⁻¹ else 0

/-- `Ainv = np.matmul(vhk.T, np.multiply(s[..., np.newaxis], uk.T))`:
the pseudoinverse assembled from the SVD factors (row-scaling by the
reciprocal singular values is multiplication by the diagonal matrix). -/
def svdAinv (u : Matrix (Fin M) (Fin M) F) (s : Fin (min M N) → F)
    (vh : Matrix (Fin N) (Fin N) F) : Matrix (Fin N) (Fin M) F :=
  (svdVhk (M := M) vh)ᵀ * Matrix.diagonal (sInvVec s) * (svdUk (N := N) u)ᵀ

/-- `y0 = np.dot(Ainv, b)`. -/
def svdY0 (u : Matrix (Fin M) (Fin M) F) (s : Fin (min M N) → F)
    (vh : Matrix (Fin N) (Fin N) F) (b : Fin M → F) : Fin N → F :=
  (svdAinv u s vh).mulVec b

/-- `Z = vh[num:, :].T.conj()` (real entries, so `conj` is the identity):
column `j` of `Z` is row `num + j` of `vh`. -/
def svdZ (vh : Matrix (Fin N) (Fin N) F) (num : ℕ) :
    Matrix (Fin N) (Fin (N - num)) F :=
  Matrix.of fun i j => vh ⟨num + (j : ℕ), by have hj := j.isLt; omega⟩ i

/-- Shallow embedding of `ObjectiveFunction.project` (objective_funs.py
lines 329-337): `x = Z.T @ (y - y0)`. -/
def project {dx : ℕ} (Z : Matrix (Fin N) (Fin dx) F) (y0 y : Fin N → F) : Fin dx → F :=
  Zᵀ.mulVec (y - y0)

/-- Shallow embedding of `ObjectiveFunction.recover` (objective_funs.py
lines 339-346): `y = y0 + Z @ x`. -/
def recover {dx : ℕ} (Z : Matrix (Fin N) (Fin dx) F) (y0 : Fin N → F) (x : Fin dx → F) :
    Fin N → F :=
  y0 + Z.mulVec x

theorem numLarge_le {K : ℕ} (s : Fin K → F) : numLarge s ≤ K :=
  le_trans (Finset.card_filter_le _ _) (by simp)

/-- With the singular values nonnegative and descending (numpy's contract),
`num = #{large}` cuts them exactly: `s i` is nonzero iff `i < num`. -/
theorem lt_numLarge_iff {K : ℕ} (s : Fin K → F)
    (hsort : ∀ i j : Fin K, i ≤ j → s j ≤ s i) (hnn : ∀ i, 0 ≤ s i) (i : Fin K) :
    (i : ℕ) < numLarge s ↔ 0 < s i := by
  constructor
  · intro hlt
    by_contra hns
    have hzero : s i = 0 := le_antisymm (not_lt.mp hns) (hnn i)
    have hsub : Finset.univ.filter (fun j => 0 < s j) ⊆ Finset.Iio i := by
      intro j hj
      rw [Finset.mem_filter] at hj
      rw [Finset.mem_Iio]
      by_contra hji
      have h1 : s j ≤ s i := hsort i j (not_lt.mp hji)
      rw [hzero] at h1
      exact absurd hj.2 (not_lt.mpr h1)
    have hcard := Finset.card_le_card hsub
    rw [Fin.card_Iio] at hcard
    unfold numLarge at hlt
    omega
  · intro hpos
    have hsub : Finset.Iic i ⊆ Finset.univ.filter (fun j => 0 < s j) := by
      intro j hj
      rw [Finset.mem_Iic] at hj
      exact Finset.mem_filter.mpr ⟨Finset.mem_univ j, lt_of_lt_of_le hpos (hsort j i hj)⟩
    have hcard := Finset.card_le_card hsub
    rw [Fin.card_Iic] at hcard
    unfold numLarge
    omega

theorem s_zero_of_numLarge_le {K : ℕ} (s : Fin K → F)
    (hsort : ∀ i j : Fin K, i ≤ j → s j ≤ s i) (hnn : ∀ i, 0 ≤ s i) (i : Fin K)
    (h : numLarge s ≤ (i : ℕ)) : s i = 0 := by
  have := (lt_numLarge_iff s hsort hnn i).not.mp (by omega)
  exact le_antisymm (not_lt.mp this) (hnn i)

/-- Rows of an orthogonal `vh` are orthonormal. -/
theorem vh_rows_orthonormal (vh : Matrix (Fin N) (Fin N) F) (hvh : vh * vhᵀ = 1)
    (a b : Fin N) : ∑ k, vh a k * vh b k = if a = b then 1 else 0 := by
  have h := congrFun (congrFun hvh a) b
  rw [Matrix.mul_apply] at h
  simpa [Matrix.transpose_apply, Matrix.one_apply] using h

/-- Columns of an orthogonal `u` are orthonormal. -/
theorem u_cols_orthonormal (u : Matrix (Fin M) (Fin M) F) (hu : uᵀ * u = 1)
    (a b : Fin M) : ∑ k, u k a * u k b = if a = b then 1 else 0 := by
  have h := congrFun (congrFun hu a) b
  rw [Matrix.mul_apply] at h
  simpa [Matrix.transpose_apply, Matrix.one_apply] using h

/-- `Z`'s columns are orthonormal: `Z.T @ Z = I` (exact arithmetic). -/
theorem svdZ_orthonormal (vh : Matrix (Fin N) (Fin N) F) (hvh : vh * vhᵀ = 1)
    (num : ℕ) : (svdZ vh num)ᵀ * svdZ vh num = 1 := by
  ext j j'
  rw [Matrix.mul_apply]
  have hsum : ∀ i : Fin N, (svdZ vh num)ᵀ j i * svdZ vh num i j' =
      vh ⟨num + (j : ℕ), by have := j.isLt; omega⟩ i *
        vh ⟨num + (j' : ℕ), by have := j'.isLt; omega⟩ i := by
    intro i
    simp [svdZ, Matrix.transpose_apply]
  rw [Finset.sum_congr rfl (fun i _ => hsum i), vh_rows_orthonormal vh hvh]
  by_cases h : j = j'
  · subst h
    simp [Matrix.one_apply]
  · have hne : (j : ℕ) ≠ (j' : ℕ) := fun hv => h (Fin.ext hv)
    rw [if_neg (by simp [Fin.ext_iff]; omega), Matrix.one_apply_ne h]

/-- `vh @ Z` selects the trailing coordinates: entry `(a, j)` is `1` iff
`a = num + j`. -/
theorem vh_mul_svdZ (vh : Matrix (Fin N) (Fin N) F) (hvh : vh * vhᵀ = 1) (num : ℕ) :
    vh * svdZ vh num =
      Matrix.of (fun (a : Fin N) (j : Fin (N - num)) =>
        if (a : ℕ) = num + (j : ℕ) then 1 else 0) := by
  ext a j
  rw [Matrix.mul_apply]
  have hsum : ∀ i : Fin N, vh a i * svdZ vh num i j =
      vh a i * vh ⟨num + (j : ℕ), by have := j.isLt; omega⟩ i := by
    intro i
    simp [svdZ]
  rw [Finset.sum_congr rfl (fun i _ => hsum i), vh_rows_orthonormal vh hvh]
  simp [Matrix.of_apply, Fin.ext_iff]

/-- `A @ Z = 0` exactly: the trailing `N - num` right-singular directions are
annihilated because their singular values vanish. -/
theorem A_mul_svdZ_eq_zero (u : Matrix (Fin M) (Fin M) F) (s : Fin (min M N) → F)
    (vh : Matrix (Fin N) (Fin N) F) (A : Matrix (Fin M) (Fin N) F)
    (hA : A = u * sigmaMat M N s * vh) (hvh : vh * vhᵀ = 1) (num : ℕ)
    (hzero : ∀ i : Fin (min M N), num ≤ (i : ℕ) → s i = 0) :
    A * svdZ vh num = 0 := by
  have hsig : sigmaMat M N s * Matrix.of (fun (a : Fin N) (j : Fin (N - num)) =>
      if (a : ℕ) = num + (j : ℕ) then (1 : F) else 0) = 0 := by
    ext i j
    rw [Matrix.mul_apply]
    have hc : num + (j : ℕ) < N := by have := j.isLt; omega
    rw [Finset.sum_eq_single (⟨num + (j : ℕ), hc⟩ : Fin N)]
    · rw [Matrix.of_apply]
      rw [if_pos rfl]
      unfold sigmaMat
      rw [Matrix.of_apply]
      by_cases hij : (i : ℕ) = num + (j : ℕ)
      · rw [dif_pos hij]
        rw [hzero _ (show num ≤ (i : ℕ) by omega)]
        simp
      · rw [dif_neg hij]
        simp
    · intro a _ hne
      rw [Matrix.of_apply, if_neg (by simp [Fin.ext_iff] at hne ⊢; omega)]
      simp
    · intro hmem
      exact absurd (Finset.mem_univ _) hmem
  rw [hA, Matrix.mul_assoc (u * sigmaMat M N s) vh (svdZ vh num)]
  rw [vh_mul_svdZ vh hvh num, Matrix.mul_assoc u (sigmaMat M N s) _, hsig, Matrix.mul_zero]

/-! Intermediate delta-like matrices used to collapse `A @ Ainv @ A`. -/

/-- The N-by-K inclusion `vh @ vhk.T`. -/
def incNK (M N : ℕ) : Matrix (Fin N) (Fin (min M N)) F :=
  Matrix.of fun a k => if (a : ℕ) = (k : ℕ) then (1 : F) else 0

/-- The K-by-M inclusion `uk.T @ u`. -/
def incKM (M N : ℕ) : Matrix (Fin (min M N)) (Fin M) F :=
  Matrix.of fun k i => if (k : ℕ) = (i : ℕ) then (1 : F) else 0

/-- `Σ` squeezed to K columns. -/
def sigK (M N : ℕ) (s : Fin (min M N) → F) : Matrix (Fin M) (Fin (min M N)) F :=
  Matrix.of fun i k => if (i : ℕ) = (k : ℕ) then s k else 0

/-- `Σ` squeezed to K columns and scaled by the reciprocal singular values. -/
def sigKInv (M N : ℕ) (s : Fin (min M N) → F) : Matrix (Fin M) (Fin (min M N)) F :=
  Matrix.of fun i k => if (i : ℕ) = (k : ℕ) then s k * sInvVec s k else 0

/-- The M-by-M diagonal projection `diag(s_i * sInv_i)` (1 on the retained
singular directions, 0 elsewhere). -/
def projDiag (M N : ℕ) (s : Fin (min M N) → F) : Matrix (Fin M) (Fin M) F :=
  Matrix.of fun i i' =>
    if h : (i : ℕ) = (i' : ℕ) ∧ (i : ℕ) < min M N then
      s ⟨(i : ℕ), h.2⟩ * sInvVec s ⟨(i : ℕ), h.2⟩
    else 0

theorem s_mul_sInv_mul_s {K : ℕ} (s : Fin K → F) (hnn : ∀ i, 0 ≤ s i) (i : Fin K) :
    s i * sInvVec s i * s i = s i := by
  unfold sInvVec
  by_cases h : 0 < s i
  · rw [if_pos h, mul_inv_cancel₀ (ne_of_gt h), one_mul]
  · have : s i = 0 := le_antisymm (not_lt.mp h) (hnn i)
    rw [this]
    simp

theorem vh_mul_vhkT (vh : Matrix (Fin N) (Fin N) F) (hvh : vh * vhᵀ = 1) :
    vh * (svdVhk (M := M) vh)ᵀ = incNK M N := by
  ext a k
  rw [Matrix.mul_apply]
  have hs : ∀ i, vh a i * (svdVhk (M := M) vh)ᵀ i k =
      vh a i * vh ⟨(k : ℕ), lt_of_lt_of_le k.isLt (min_le_right M N)⟩ i := by
    intro i
    simp [svdVhk, Matrix.transpose_apply]
  rw [Finset.sum_congr rfl (fun i _ => hs i), vh_rows_orthonormal vh hvh]
  simp [incNK, Matrix.of_apply, Fin.ext_iff]

theorem ukT_mul_u (u : Matrix (Fin M) (Fin M) F) (hu : uᵀ * u = 1) :
    (svdUk (N := N) u)ᵀ * u = incKM M N := by
  ext k i
  rw [Matrix.mul_apply]
  have hs : ∀ m, (svdUk (N := N) u)ᵀ k m * u m i =
      u m ⟨(k : ℕ), lt_of_lt_of_le k.isLt (min_le_left M N)⟩ * u m i := by
    intro m
    simp [svdUk, Matrix.transpose_apply]
  rw [Finset.sum_congr rfl (fun m _ => hs m), u_cols_orthonormal u hu]
  simp [incKM, Matrix.of_apply, Fin.ext_iff]

theorem sigma_mul_incNK (s : Fin (min M N) → F) :
    sigmaMat M N s * incNK M N = sigK M N s := by
  ext i k
  rw [Matrix.mul_apply]
  rw [Finset.sum_eq_single (⟨(k : ℕ), lt_of_lt_of_le k.isLt (min_le_right M N)⟩ : Fin N)]
  · rw [show (incNK M N (F := F)) ⟨(k : ℕ), lt_of_lt_of_le k.isLt (min_le_right M N)⟩ k =
        1 from by simp [incNK]]
    rw [mul_one]
    unfold sigmaMat sigK
    by_cases hik : (i : ℕ) = (k : ℕ)
    · rw [Matrix.of_apply, Matrix.of_apply, dif_pos hik, if_pos hik]
      congr 1
      exact Fin.ext hik
    · rw [Matrix.of_apply, Matrix.of_apply, dif_neg hik, if_neg hik]
  · intro a _ hne
    rw [show (incNK M N (F := F)) a k = 0 from by
      simp only [incNK, Matrix.of_apply, ite_eq_right_iff]
      intro hak
      exact absurd (Fin.ext hak) hne]
    rw [mul_zero]
  · intro hmem
    exact absurd (Finset.mem_univ _) hmem

theorem sigK_mul_diag (s : Fin (min M N) → F) :
    sigK M N s * Matrix.diagonal (sInvVec s) = sigKInv M N s := by
  ext i k
  rw [Matrix.mul_diagonal]
  unfold sigK sigKInv
  rw [Matrix.of_apply, Matrix.of_apply]
  by_cases hik : (i : ℕ) = (k : ℕ)
  · rw [if_pos hik, if_pos hik]
  · rw [if_neg hik, if_neg hik, zero_mul]

theorem sigKInv_mul_incKM (s : Fin (min M N) → F) :
    sigKInv M N s * incKM M N = projDiag M N s := by
  ext i i'
  rw [Matrix.mul_apply]
  by_cases hiK : (i : ℕ) < min M N
  · rw [Finset.sum_eq_single (⟨(i : ℕ), hiK⟩ : Fin (min M N))]
    · rw [show (sigKInv M N s) i ⟨(i : ℕ), hiK⟩ =
          s ⟨(i : ℕ), hiK⟩ * sInvVec s ⟨(i : ℕ), hiK⟩ from by simp [sigKInv]]
      unfold incKM projDiag
      rw [Matrix.of_apply, Matrix.of_apply]
      by_cases hii : (i : ℕ) = (i' : ℕ)
      · rw [if_pos hii, dif_pos ⟨hii, hiK⟩, mul_one]
      · rw [if_neg hii, dif_neg (by intro hc; exact hii hc.1), mul_zero]
    · intro k _ hne
      rw [show (sigKInv M N s) i k = 0 from by
        simp only [sigKInv, Matrix.of_apply, ite_eq_right_iff]
        intro hik
        exact absurd (Fin.ext hik.symm).symm (by
          intro hc
          exact hne (by rw [← hc]))]
      rw [zero_mul]
    · intro hmem
      exact absurd (Finset.mem_univ _) hmem
  · rw [Finset.sum_eq_zero]
    · unfold projDiag
      rw [Matrix.of_apply, dif_neg (by intro hc; exact hiK hc.2)]
    · intro k _
      rw [show (sigKInv M N s) i k = 0 from by
        simp only [sigKInv, Matrix.of_apply, ite_eq_right_iff]
        intro hik
        exact absurd (hik ▸ k.isLt) hiK]
      rw [zero_mul]

theorem projDiag_mul_sigma (s : Fin (min M N) → F) (hnn : ∀ i, 0 ≤ s i) :
    projDiag M N s * sigmaMat M N s = sigmaMat M N s := by
  ext i j
  rw [Matrix.mul_apply]
  rw [Finset.sum_eq_single i]
  · unfold projDiag sigmaMat
    rw [Matrix.of_apply, Matrix.of_apply]
    by_cases hij : (i : ℕ) = (j : ℕ)
    · have hiK : (i : ℕ) < min M N := lt_min i.isLt (lt_of_eq_of_lt hij j.isLt)
      rw [dif_pos ⟨rfl, hiK⟩, dif_pos hij]
      exact s_mul_sInv_mul_s s hnn ⟨(i : ℕ), hiK⟩
    · rw [dif_neg hij, mul_zero]
  · intro i'' _ hne
    rw [show (projDiag M N s) i i'' = 0 from by
      unfold projDiag
      rw [Matrix.of_apply, dif_neg]
      intro hc
      exact hne (Fin.ext hc.1).symm]
    rw [zero_mul]
  · intro hmem
    exact absurd (Finset.mem_univ _) hmem

/-- The first Penrose identity for the code's SVD pseudoinverse:
`A @ Ainv @ A = A` in exact arithmetic. -/
theorem A_mul_Ainv_mul_A (u : Matrix (Fin M) (Fin M) F) (s : Fin (min M N) → F)
    (vh : Matrix (Fin N) (Fin N) F) (A : Matrix (Fin M) (Fin N) F)
    (hA : A = u * sigmaMat M N s * vh) (hu : uᵀ * u = 1) (hvh : vh * vhᵀ = 1)
    (hnn : ∀ i, 0 ≤ s i) :
    A * svdAinv u s vh * A = A := by
  rw [hA]
  unfold svdAinv
  simp only [Matrix.mul_assoc]
  rw [← Matrix.mul_assoc (svdUk (N := N) u)ᵀ u (sigmaMat M N s * vh)]
  rw [ukT_mul_u u hu]
  rw [← Matrix.mul_assoc vh (svdVhk (M := M) vh)ᵀ _]
  rw [vh_mul_vhkT vh hvh]
  rw [← Matrix.mul_assoc (sigmaMat M N s) (incNK M N) _]
  rw [sigma_mul_incNK s]
  rw [← Matrix.mul_assoc (sigK M N s) (Matrix.diagonal (sInvVec s)) _]
  rw [sigK_mul_diag s]
  rw [← Matrix.mul_assoc (sigKInv M N s) (incKM M N) _]
  rw [sigKInv_mul_incKM s]
  rw [← Matrix.mul_assoc (projDiag M N s) (sigmaMat M N s) vh]
  rw [projDiag_mul_sigma s hnn]

/-- Every kernel vector of `A` lies in the span of `Z`'s columns: the
trailing rows of `vh` are an (orthonormal) basis of the null space. -/
theorem ker_sub_range_svdZ (u : Matrix (Fin M) (Fin M) F) (s : Fin (min M N) → F)
    (vh : Matrix (Fin N) (Fin N) F) (A : Matrix (Fin M) (Fin N) F)
    (hA : A = u * sigmaMat M N s * vh) (hu : uᵀ * u = 1) (hvh : vh * vhᵀ = 1)
    (num : ℕ) (hnum : num ≤ min M N)
    (hpos : ∀ i : Fin (min M N), (i : ℕ) < num → s i ≠ 0)
    (v : Fin N → F) (hv : A.mulVec v = 0) :
    ∃ c : Fin (N - num) → F, v = (svdZ vh num).mulVec c := by
  have hvhT : vhᵀ * vh = 1 := Matrix.mul_eq_one_comm.mp hvh
  set w := vh.mulVec v with hw
  have hsw : (sigmaMat M N s).mulVec w = 0 := by
    have h1 : u.mulVec ((sigmaMat M N s).mulVec w) = A.mulVec v := by
      rw [hA, hw, Matrix.mulVec_mulVec, Matrix.mulVec_mulVec]
    have h2 : u.mulVec ((sigmaMat M N s).mulVec w) = 0 := by rw [h1, hv]
    calc (sigmaMat M N s).mulVec w
        = (1 : Matrix (Fin M) (Fin M) F).mulVec ((sigmaMat M N s).mulVec w) := by
          rw [Matrix.one_mulVec]
      _ = (uᵀ * u).mulVec ((sigmaMat M N s).mulVec w) := by rw [hu]
      _ = uᵀ.mulVec (u.mulVec ((sigmaMat M N s).mulVec w)) := by
          simp only [Matrix.mulVec_mulVec, Matrix.mul_assoc]
      _ = uᵀ.mulVec 0 := by rw [h2]
      _ = 0 := Matrix.mulVec_zero _
  have hw0 : ∀ a : Fin N, (a : ℕ) < num → w a = 0 := by
    intro a ha
    have haK : (a : ℕ) < min M N := lt_of_lt_of_le ha hnum
    have haM : (a : ℕ) < M := lt_of_lt_of_le haK (min_le_left M N)
    have hrow := congrFun hsw ⟨(a : ℕ), haM⟩
    rw [Matrix.mulVec, Matrix.dotProduct] at hrow
    rw [Finset.sum_eq_single a] at hrow
    · rw [show sigmaMat M N s ⟨(a : ℕ), haM⟩ a = s ⟨(a : ℕ), haK⟩ from by
        simp [sigmaMat]] at hrow
      rcases mul_eq_zero.mp hrow with h | h
      · exact absurd h (hpos _ ha)
      · exact h
    · intro b _ hba
      rw [show sigmaMat M N s ⟨(a : ℕ), haM⟩ b = 0 from by
        unfold sigmaMat
        rw [Matrix.of_apply, dif_neg]
        intro hc
        exact hba (Fin.ext hc.symm)]
      rw [zero_mul]
    · intro hmem
      exact absurd (Finset.mem_univ _) hmem
  have hvrec : v = vhᵀ.mulVec w := by
    rw [hw, Matrix.mulVec_mulVec, hvhT, Matrix.one_mulVec]
  have hnumN : num ≤ N := le_trans hnum (min_le_right M N)
  refine ⟨fun jj => w ⟨num + (jj : ℕ), by have := jj.isLt; omega⟩, ?_⟩
  funext i
  rw [hvrec]
  set g : ℕ → F := fun t => if h : t < N then vh ⟨t, h⟩ i * w ⟨t, h⟩ else 0 with hgdef
  have hLHS : vhᵀ.mulVec w i = ∑ t in Finset.range N, g t := by
    rw [Matrix.mulVec, Matrix.dotProduct]
    rw [← Fin.sum_univ_eq_sum_range g N]
    refine Finset.sum_congr rfl ?_
    intro a _
    simp only [hgdef]
    rw [dif_pos a.isLt]
    simp [Matrix.transpose_apply]
  rw [hLHS]
  have hNn : num + (N - num) = N := by omega
  rw [show (∑ t in Finset.range N, g t) = ∑ t in Finset.range (num + (N - num)), g t from
    by rw [hNn]]
  rw [Finset.sum_range_add]
  have hzero1 : ∑ t in Finset.range num, g t = 0 := by
    refine Finset.sum_eq_zero ?_
    intro t ht
    rw [Finset.mem_range] at ht
    simp only [hgdef]
    rw [dif_pos (by omega)]
    rw [hw0 ⟨t, by omega⟩ ht, mul_zero]
  rw [hzero1, zero_add]
  rw [show (∑ t in Finset.range (N - num), g (num + t)) =
      ∑ jj : Fin (N - num), g (num + (jj : ℕ)) from
    (Fin.sum_univ_eq_sum_range (fun t => g (num + t)) (N - num)).symm]
  rw [Matrix.mulVec, Matrix.dotProduct]
  refine Finset.sum_congr rfl ?_
  intro jj _
  simp only [hgdef]
  rw [dif_pos (by have := jj.isLt; omega)]
  simp [svdZ]

/-- Shared helper: when the stacked constraint system is consistent
(witnessed by any `y` with `A @ y = b`), the particular solution
`y0 = Ainv @ b` satisfies `A @ y0 = b` exactly. -/
theorem svdY0_feasible (u : Matrix (Fin M) (Fin M) F) (s : Fin (min M N) → F)
    (vh : Matrix (Fin N) (Fin N) F) (A : Matrix (Fin M) (Fin N) F) (b : Fin M → F)
    (hA : A = u * sigmaMat M N s * vh) (hu : uᵀ * u = 1) (hvh : vh * vhᵀ = 1)
    (hnn : ∀ i, 0 ≤ s i) (y : Fin N → F) (hy : A.mulVec y = b) :
    A.mulVec (svdY0 u s vh b) = b := by
  unfold svdY0
  calc A.mulVec ((svdAinv u s vh).mulVec b)
      = A.mulVec ((svdAinv u s vh).mulVec (A.mulVec y)) := by rw [hy]
    _ = (A * svdAinv u s vh * A).mulVec y := by
        simp only [Matrix.mulVec_mulVec, Matrix.mul_assoc]
    _ = A.mulVec y := by rw [A_mul_Ainv_mul_A u s vh A hA hu hvh hnn]
    _ = b := hy

/-- Shared helper: the first round trip `project(recover(x)) = x`, needing
only the orthonormality of `Z`'s columns. -/
theorem project_recover_eq (u : Matrix (Fin M) (Fin M) F) (s : Fin (min M N) → F)
    (vh : Matrix (Fin N) (Fin N) F) (b : Fin M → F) (hvh : vh * vhᵀ = 1)
    (x : Fin (N - numLarge s) → F) :
    project (svdZ vh (numLarge s)) (svdY0 u s vh b)
      (recover (svdZ vh (numLarge s)) (svdY0 u s vh b) x) = x := by
  unfold project recover
  rw [add_sub_cancel_left, Matrix.mulVec_mulVec, svdZ_orthonormal vh hvh, Matrix.one_mulVec]

/-- Shared helper: the second round trip `recover(project(y)) = y` for every
`y` on the constraint subspace `A @ y = b`. -/
theorem recover_project_eq (u : Matrix (Fin M) (Fin M) F) (s : Fin (min M N) → F)
    (vh : Matrix (Fin N) (Fin N) F) (A : Matrix (Fin M) (Fin N) F) (b : Fin M → F)
    (hA : A = u * sigmaMat M N s * vh) (hu : uᵀ * u = 1) (hvh : vh * vhᵀ = 1)
    (hsort : ∀ i j, i ≤ j → s j ≤ s i) (hnn : ∀ i, 0 ≤ s i)
    (y : Fin N → F) (hy : A.mulVec y = b) :
    recover (svdZ vh (numLarge s)) (svdY0 u s vh b)
      (project (svdZ vh (numLarge s)) (svdY0 u s vh b) y) = y := by
  have hy0 : A.mulVec (svdY0 u s vh b) = b := svdY0_feasible u s vh A b hA hu hvh hnn y hy
  have hker : A.mulVec (y - svdY0 u s vh b) = 0 := by
    rw [Matrix.mulVec_sub, hy, hy0, sub_self]
  obtain ⟨c, hc⟩ := ker_sub_range_svdZ u s vh A hA hu hvh (numLarge s) (numLarge_le s)
    (fun i hi => ne_of_gt ((lt_numLarge_iff s hsort hnn i).mp hi))
    (y - svdY0 u s vh b) hker
  unfold project recover
  rw [hc]
  have hinner : (svdZ vh (numLarge s))ᵀ.mulVec ((svdZ vh (numLarge s)).mulVec c) = c := by
    rw [Matrix.mulVec_mulVec, svdZ_orthonormal vh hvh, Matrix.one_mulVec]
  rw [hinner, ← hc]
  abel

/-- C2: for every built `ObjectiveFunction` (SVD-factored constraint data in
exact arithmetic), `project` and `recover` are mutual inverses on the
constraint-satisfying affine subspace: `project(recover(x)) = x` for every
`x` of length `dim_x`, and `recover(project(y)) = y` for every `y` of
length `dim_y` with `A @ y = b` (exact equality, hence within `1e-10`). -/
theorem project_recover_roundtrip (u : Matrix (Fin M) (Fin M) F)
    (s : Fin (min M N) → F) (vh : Matrix (Fin N) (Fin N) F)
    (A : Matrix (Fin M) (Fin N) F) (b : Fin M → F)
    (hA : A = u * sigmaMat M N s * vh) (hu : uᵀ * u = 1) (hvh : vh * vhᵀ = 1)
    (hsort : ∀ i j, i ≤ j → s j ≤ s i) (hnn : ∀ i, 0 ≤ s i) :
    (∀ x : Fin (N - numLarge s) → F,
      project (svdZ vh (numLarge s)) (svdY0 u s vh b)
        (recover (svdZ vh (numLarge s)) (svdY0 u s vh b) x) = x) ∧
    (∀ y : Fin N → F, A.mulVec y = b →
      recover (svdZ vh (numLarge s)) (svdY0 u s vh b)
        (project (svdZ vh (numLarge s)) (svdY0 u s vh b) y) = y) :=
  ⟨fun x => project_recover_eq u s vh b hvh x,
   fun y hy => recover_project_eq u s vh A b hA hu hvh hsort hnn y hy⟩

/-- Concrete SVD data for the round-trip witness: `A = [[1, 0]]` factored as
`1 * Σ * 1` with a single unit singular value. -/
def wu : Matrix (Fin 1) (Fin 1) ℚ := 1

/-- Witness singular values. -/
def ws : Fin (min 1 2) → ℚ := fun _ => 1

/-- Witness right factor. -/
def wvh : Matrix (Fin 2) (Fin 2) ℚ := 1

/-- Witness constraint matrix, assembled from its SVD factors. -/
def wA : Matrix (Fin 1) (Fin 2) ℚ := wu * sigmaMat 1 2 ws * wvh

/-- Witness target vector. -/
def wb : Fin 1 → ℚ := fun _ => 1

/-- Witness feasible state vector. -/
def wy : Fin 2 → ℚ := ![1, 7]

theorem wA_mulVec_wy : wA.mulVec wy = wb := by
  funext i
  fin_cases i
  simp [wA, wb, wy, ws, wu, wvh, sigmaMat, Matrix.mulVec, Matrix.dotProduct,
    Fin.sum_univ_two]

/-- C2 witness: with `A = [[1, 0]]`, `b = [1]`, the two round trips hold at
`x = (5)` and at the feasible `y = (1, 7)`. -/
theorem project_recover_roundtrip_witness :
    wA.mulVec wy = wb ∧
      project (svdZ wvh (numLarge ws)) (svdY0 wu ws wvh wb)
        (recover (svdZ wvh (numLarge ws)) (svdY0 wu ws wvh wb) (fun _ => 5)) =
        (fun _ => (5 : ℚ)) ∧
      recover (svdZ wvh (numLarge ws)) (svdY0 wu ws wvh wb)
        (project (svdZ wvh (numLarge ws)) (svdY0 wu ws wvh wb) wy) = wy := by
  have hrt := project_recover_roundtrip wu ws wvh wA wb rfl (by simp [wu]) (by simp [wvh])
    (fun i j _ => le_refl _) (fun i => by norm_num [ws])
  exact ⟨wA_mulVec_wy, hrt.1 _, hrt.2 wy wA_mulVec_wy⟩

/-- C3 (amended): for every built `ObjectiveFunction` with constraints (in
exact arithmetic), `A @ Z = 0` always holds; and `A @ y0 = b` holds whenever
the stacked constraint system is consistent (some `y` satisfies `A @ y = b`)
-- with inconsistent stacked constraints (e.g. duplicate constraints with
different targets) `y0` is only the least-squares solution and `A @ y0`
can differ from `b` by far more than the `1e-8` tolerance. -/
theorem constraint_artifacts (u : Matrix (Fin M) (Fin M) F)
    (s : Fin (min M N) → F) (vh : Matrix (Fin N) (Fin N) F)
    (A : Matrix (Fin M) (Fin N) F) (b : Fin M → F)
    (hA : A = u * sigmaMat M N s * vh) (hu : uᵀ * u = 1) (hvh : vh * vhᵀ = 1)
    (hsort : ∀ i j, i ≤ j → s j ≤ s i) (hnn : ∀ i, 0 ≤ s i) :
    A * svdZ vh (numLarge s) = 0 ∧
      (∀ y : Fin N → F, A.mulVec y = b → A.mulVec (svdY0 u s vh b) = b) :=
  ⟨A_mul_svdZ_eq_zero u s vh A hA hvh (numLarge s)
      (fun i hi => s_zero_of_numLarge_le s hsort hnn i hi),
   fun y hy => svdY0_feasible u s vh A b hA hu hvh hnn y hy⟩

/-- C3 witness: the amended properties at the concrete data of the
round-trip witness. -/
theorem constraint_artifacts_witness :
    wA * svdZ wvh (numLarge ws) = 0 ∧ wA.mulVec (svdY0 wu ws wvh wb) = wb := by
  have h := constraint_artifacts wu ws wvh wA wb rfl (by simp [wu]) (by simp [wvh])
    (fun i j _ => le_refl _) (fun i => by norm_num [ws])
  exact ⟨h.1, h.2 wy wA_mulVec_wy⟩

/-! C3 counterexample data: two duplicate single-coefficient constraints
with conflicting targets 0 and 2 stack to `A = [[1], [1]]`, `b = (0, 2)`
(reachable, e.g., from two `FixedPsi` constraints with different targets;
the code notes "TODO: handle duplicate constraints").  The exact SVD of
`A` has `u = [[1/√2, 1/√2], [1/√2, -1/√2]]`, `s = (√2)`, `vh = [[1]]`;
`b` is not in the range of `A`, so `y0 = Ainv @ b = 1` gives
`A @ y0 = (1, 1) ≠ (0, 2)`. -/

/-- Counterexample left singular factor. -/
noncomputable def ceu : Matrix (Fin 2) (Fin 2) ℝ :=
  Matrix.of ![![(Real.sqrt 2)⁻¹, (Real.sqrt 2)⁻¹], ![(Real.sqrt 2)⁻¹, -(Real.sqrt 2)⁻¹]]

/-- Counterexample singular values. -/
noncomputable def ces : Fin (min 2 1) → ℝ := fun _ => Real.sqrt 2

/-- Counterexample right factor. -/
def cevh : Matrix (Fin 1) (Fin 1) ℝ := 1

/-- Counterexample stacked constraint matrix (two duplicate constraints on
one coefficient). -/
def ceA : Matrix (Fin 2) (Fin 1) ℝ := Matrix.of ![![1], ![1]]

/-- Counterexample stacked targets (conflicting: 0 and 2). -/
def ceb : Fin 2 → ℝ := ![0, 2]

/-- C3 counterexample: valid exact-arithmetic SVD data for a built
`ObjectiveFunction` with two duplicate, conflicting constraints, for which
`A @ y0` misses `b` by 1 -- more than `1e-8` absolutely and relatively. -/
theorem constraint_Ay0_ne_b_counterexample :
    ceA = ceu * sigmaMat 2 1 ces * cevh ∧
      ceuᵀ * ceu = 1 ∧
      cevh * cevhᵀ = 1 ∧
      (∀ i j : Fin (min 2 1), i ≤ j → ces j ≤ ces i) ∧
      (∀ i, 0 ≤ ces i) ∧
      ceA.mulVec (svdY0 ceu ces cevh ceb) 0 = 1 ∧ ceb 0 = 0 ∧
      1 / 10 ^ 8 < |ceA.mulVec (svdY0 ceu ces cevh ceb) 0 - ceb 0| := by
  have hpos : (0 : ℝ) < Real.sqrt 2 := Real.sqrt_pos.mpr (by norm_num)
  have hne : Real.sqrt 2 ≠ 0 := ne_of_gt hpos
  have hmul : Real.sqrt 2 * Real.sqrt 2 = 2 := Real.mul_self_sqrt (by norm_num)
  have hinv2 : (Real.sqrt 2)⁻¹ * (Real.sqrt 2)⁻¹ = 1 / 2 := by
    rw [← mul_inv, hmul]
    norm_num
  have hinvmul : (Real.sqrt 2)⁻¹ * Real.sqrt 2 = 1 := inv_mul_cancel₀ hne
  have hy0 : svdY0 ceu ces cevh ceb = fun _ => 1 := by
    funext j
    fin_cases j
    show (svdAinv ceu ces cevh).mulVec ceb 0 = 1
    rw [Matrix.mulVec, Matrix.dotProduct, Fin.sum_univ_two]
    have hAinv : ∀ i : Fin 2, svdAinv ceu ces cevh 0 i = 1 / 2 := by
      intro i
      unfold svdAinv
      rw [Matrix.mul_apply]
      simp only [Matrix.mul_diagonal]
      rw [Finset.sum_eq_single (⟨0, by omega⟩ : Fin (2 ⊓ 1))]
      · rw [show (svdVhk (M := 2) cevh)ᵀ 0 (⟨0, by omega⟩ : Fin (2 ⊓ 1)) = 1 from by
          simp [svdVhk, cevh, Matrix.transpose_apply, Matrix.one_apply]]
        rw [show sInvVec ces (⟨0, by omega⟩ : Fin (2 ⊓ 1)) = (Real.sqrt 2)⁻¹ from by
          simp [sInvVec, ces, hpos]]
        rw [show (svdUk (N := 1) ceu)ᵀ (⟨0, by omega⟩ : Fin (2 ⊓ 1)) i = (Real.sqrt 2)⁻¹
          from by fin_cases i <;> simp [svdUk, ceu, Matrix.transpose_apply]]
        rw [one_mul, hinv2]
      · intro c _ hc
        exact absurd (Fin.ext (by have := c.isLt; omega) : c = ⟨0, by omega⟩) hc
      · intro hmem
        exact absurd (Finset.mem_univ _) hmem
    rw [hAinv 0, hAinv 1]
    show 1 / 2 * ceb 0 + 1 / 2 * ceb 1 = 1
    norm_num [ceb]
  have hAy0 : ceA.mulVec (svdY0 ceu ces cevh ceb) 0 = 1 := by
    rw [hy0]
    rw [Matrix.mulVec, Matrix.dotProduct, Fin.sum_univ_one]
    norm_num [ceA]
  refine ⟨?_, ?_, ?_, fun i j _ => le_refl _, fun i => Real.sqrt_nonneg 2, hAy0, rfl, ?_⟩
  · ext i j
    fin_cases i <;> fin_cases j
    · show ceA 0 0 = (ceu * sigmaMat 2 1 ces * cevh) 0 0
      rw [show cevh = 1 from rfl, Matrix.mul_one, Matrix.mul_apply, Fin.sum_univ_two]
      rw [show sigmaMat 2 1 ces 0 0 = Real.sqrt 2 from by simp [sigmaMat, ces]]
      rw [show sigmaMat 2 1 ces 1 0 = 0 from by simp [sigmaMat]]
      rw [show ceu 0 0 = (Real.sqrt 2)⁻¹ from rfl]
      rw [show ceA 0 0 = 1 from rfl]
      rw [mul_zero, add_zero, hinvmul]
    · show ceA 1 0 = (ceu * sigmaMat 2 1 ces * cevh) 1 0
      rw [show cevh = 1 from rfl, Matrix.mul_one, Matrix.mul_apply, Fin.sum_univ_two]
      rw [show sigmaMat 2 1 ces 0 0 = Real.sqrt 2 from by simp [sigmaMat, ces]]
      rw [show sigmaMat 2 1 ces 1 0 = 0 from by simp [sigmaMat]]
      rw [show ceu 1 0 = (Real.sqrt 2)⁻¹ from rfl]
      rw [show ceA 1 0 = 1 from rfl]
      rw [mul_zero, add_zero, hinvmul]
  · ext a b
    rw [Matrix.mul_apply, Fin.sum_univ_two]
    fin_cases a <;> fin_cases b
    · show ceuᵀ 0 0 * ceu 0 0 + ceuᵀ 0 1 * ceu 1 0 = (1 : Matrix (Fin 2) (Fin 2) ℝ) 0 0
      rw [show ceuᵀ 0 0 = (Real.sqrt 2)⁻¹ from rfl, show ceuᵀ 0 1 = (Real.sqrt 2)⁻¹ from rfl,
        show ceu 0 0 = (Real.sqrt 2)⁻¹ from rfl, show ceu 1 0 = (Real.sqrt 2)⁻¹ from rfl]
      rw [hinv2]
      norm_num [Matrix.one_apply]
    · show ceuᵀ 0 0 * ceu 0 1 + ceuᵀ 0 1 * ceu 1 1 = (1 : Matrix (Fin 2) (Fin 2) ℝ) 0 1
      rw [show ceuᵀ 0 0 = (Real.sqrt 2)⁻¹ from rfl, show ceuᵀ 0 1 = (Real.sqrt 2)⁻¹ from rfl,
        show ceu 0 1 = (Real.sqrt 2)⁻¹ from rfl, show ceu 1 1 = -(Real.sqrt 2)⁻¹ from rfl]
      rw [hinv2]
      norm_num [Matrix.one_apply, hinv2]
    · show ceuᵀ 1 0 * ceu 0 0 + ceuᵀ 1 1 * ceu 1 0 = (1 : Matrix (Fin 2) (Fin 2) ℝ) 1 0
      rw [show ceuᵀ 1 0 = (Real.sqrt 2)⁻¹ from rfl, show ceuᵀ 1 1 = -(Real.sqrt 2)⁻¹ from rfl,
        show ceu 0 0 = (Real.sqrt 2)⁻¹ from rfl, show ceu 1 0 = (Real.sqrt 2)⁻¹ from rfl]
      rw [hinv2]
      norm_num [Matrix.one_apply, hinv2]
    · show ceuᵀ 1 0 * ceu 0 1 + ceuᵀ 1 1 * ceu 1 1 = (1 : Matrix (Fin 2) (Fin 2) ℝ) 1 1
      rw [show ceuᵀ 1 0 = (Real.sqrt 2)⁻¹ from rfl, show ceuᵀ 1 1 = -(Real.sqrt 2)⁻¹ from rfl,
        show ceu 0 1 = (Real.sqrt 2)⁻¹ from rfl, show ceu 1 1 = -(Real.sqrt 2)⁻¹ from rfl]
      rw [show -(Real.sqrt 2)⁻¹ * -(Real.sqrt 2)⁻¹ = (Real.sqrt 2)⁻¹ * (Real.sqrt 2)⁻¹ from
        by ring, hinv2]
      norm_num [Matrix.one_apply, hinv2]
  · show cevh * cevhᵀ = 1
    rw [show cevh = 1 from rfl]
    simp
  · rw [hAy0]
    norm_num [ceb]

end ConstraintElimination

end Desc
